import Mathlib

/-!
Verification development for `Book/gen_contents.py` of the algorithm-anthology
repository.  The script scans chapter directories for files named
`<chapter>.<section>[.<subsection>]_<name>.cpp`, sorts the parsed entries and
writes one LaTeX file `chapter<N>.tex` per chapter directory.

The shallow embedding below models:
  * the two regular expressions `DIR_RE` and `FILE_RE` (as deterministic
    parsers proved against the regex semantics for these particular patterns;
    `$` also matches just before a single trailing newline, `\S` is
    non-whitespace, `\d` is modelled as an ASCII digit);
  * the static `SECTION_NAMES` table;
  * `gen_chapter`, with the sequence of `fout.write` calls represented as a
    list of `Item`s (rendered to the exact written strings by `render`);
  * Python 3 comparison semantics for the entry tuples
    `(chapter, section, subsection, name, file)`: comparing `None` with an
    `int` raises `TypeError`, which the comparator models as an `Except`
    error; the call `sorted(entries)` is modelled as a comparison sort that
    propagates this error;
  * the `__main__` driver looping over root directory entries.

A directory listing is modelled as a `List (String × String)` of
(file name, file contents) pairs; the root tree as a list of
(directory name, listing) pairs (the `isdir` check of the driver restricts
the root scan to directories, so only directory entries are modelled).
-/

namespace GenContents

/-! ### Characters, digits and small string helpers -/

/-- Python `\s` (whitespace) for the characters that can occur here. -/
def isSpace (c : Char) : Bool := c = ' ' || c = '\t' || c = '\r' || c = '\n'

/-- Python `\d`, modelled as an ASCII digit. -/
def isDigitC (c : Char) : Bool := '0' ≤ c && c ≤ '9'

/-- Greedy `\d*`: maximal digit prefix and the remainder. -/
def takeDigits : List Char → List Char × List Char
  | [] => ([], [])
  | c :: cs =>
    if isDigitC c then
      let (d, r) := takeDigits cs
      (c :: d, r)
    else ([], c :: cs)

/-- Numeric value of a digit character. -/
def digitVal (c : Char) : Nat := c.toNat - 48

/-- Python `int(...)` on a digit string (accepts leading zeros). -/
def digitsVal (l : List Char) : Nat := l.foldl (fun a c => a * 10 + digitVal c) 0

/-- Python `str.replace` for a one-character pattern. -/
def replaceChar (s : String) (a b : Char) : String :=
  ⟨s.data.map fun c => if c = a then b else c⟩

/-- Decimal digits, most significant first; structurally recursive on a
fuel argument so that it reduces in the kernel (any `fuel > n` works). -/
def natDigitsAux (fuel : Nat) (n : Nat) : List Nat :=
  match fuel with
  | 0 => []
  | fuel + 1 => if n < 10 then [n] else natDigitsAux fuel (n / 10) ++ [n % 10]

/-- Decimal digits of a natural number, most significant first. -/
def natDigits (n : Nat) : List Nat := natDigitsAux (n + 1) n

/-- Digit character of a value below ten. -/
def digitChar10 (d : Nat) : Char := Char.ofNat (48 + d)

/-- Python `str(n)` for a non-negative integer. -/
def natStr (n : Nat) : String := ⟨(natDigits n).map digitChar10⟩

/-! ### The regular expressions

`FILE_RE = ^(\d+)\.(\d+)(?:\.(\d+))?_(\S+)\.cpp$` and
`DIR_RE = ^(\d+)-(\S+)$`.  For these patterns matching is deterministic:
the numeric groups admit no backtracking (each is followed by a
non-digit literal), and the greedy `(\S+)` followed by an anchored literal
suffix is equivalent to "strip the suffix (and an optional final newline,
which `$` tolerates), require the rest non-empty and whitespace-free". -/

/-- Strip the single trailing newline that `$` tolerates. -/
def stripFinalNl (l : List Char) : List Char :=
  if l.getLast? = some '\n' then l.dropLast else l

/-- Match `(\S+)\.cpp$` against the remainder, returning the group. -/
def parseNameCpp (l : List Char) : Option (List Char) :=
  match (stripFinalNl l).reverse with
  | 'p' :: 'p' :: 'c' :: '.' :: rest =>
    let nm := rest.reverse
    if nm.isEmpty then none
    else if nm.all (fun c => !isSpace c) then some nm else none
  | _ => none

/-- Match `(\S+)$` against the remainder, returning the group. -/
def parseNameEnd (l : List Char) : Option (List Char) :=
  let nm := stripFinalNl l
  if nm.isEmpty then none
  else if nm.all (fun c => !isSpace c) then some nm else none

/-- `FILE_RE.match(s)`: chapter, section, optional subsection, name. -/
def parseFileName (s : String) : Option (Nat × Nat × Option Nat × String) :=
  let (d1, r1) := takeDigits s.data
  if d1.isEmpty then none
  else
    match r1 with
    | '.' :: r2 =>
      let (d2, r3) := takeDigits r2
      if d2.isEmpty then none
      else
        -- optional group `(?:\.(\d+))?`; if it matches, the following `_`
        -- must match after it (shrinking the digits only exposes a digit,
        -- never `_`, so no backtracking succeeds)
        let (sub, r4) : Option (List Char) × List Char :=
          match r3 with
          | '.' :: r3' =>
            let (d3, r5) := takeDigits r3'
            if d3.isEmpty then (none, r3) else (some d3, r5)
          | _ => (none, r3)
        match r4 with
        | '_' :: r6 =>
          match parseNameCpp r6 with
          | some nm => some (digitsVal d1, digitsVal d2, sub.map digitsVal, ⟨nm⟩)
          | none => none
        | _ => none
    | _ => none

/-- `DIR_RE.match(s)`: chapter number and directory-name suffix. -/
def parseDirName (s : String) : Option (Nat × String) :=
  let (d1, r1) := takeDigits s.data
  if d1.isEmpty then none
  else
    match r1 with
    | '-' :: r2 =>
      match parseNameEnd r2 with
      | some nm => some (digitsVal d1, ⟨nm⟩)
      | none => none
    | _ => none

/-! ### The static section-title table (`SECTION_NAMES`) -/

def SECTION_NAMES : List ((Nat × Nat) × String) := [
  ((1, 1), "Array Transformations"),
  ((1, 2), "Array Queries"),
  ((1, 3), "Searching"),
  ((1, 4), "Cycle Detection"),
  ((2, 1), "Heaps"),
  ((2, 2), "Dictionaries"),
  ((2, 3), "Range Queries in One Dimension"),
  ((2, 4), "Range Queries in Two Dimensions"),
  ((2, 5), "Fenwick Trees"),
  ((2, 6), "Tree Data Structures"),
  ((3, 1), "String Utilities"),
  ((3, 3), "String Searching"),
  ((3, 2), "Expression Parsing"),
  ((3, 4), "Dynamic Programming"),
  ((3, 5), "Suffix Array and LCP"),
  ((3, 6), "String Data Structures"),
  ((4, 1), "Depth-First Search"),
  ((4, 2), "Shortest Path"),
  ((4, 3), "Connectivity"),
  ((4, 4), "Minimum Spanning Tree"),
  ((4, 5), "Maximum Flow"),
  ((4, 6), "Maximum Matching"),
  ((4, 7), "Hard Problems"),
  ((5, 1), "Math Utilities"),
  ((5, 2), "Combinatorics"),
  ((5, 3), "Number Theory"),
  ((5, 4), "Arbitrary Precision Arithmetic"),
  ((5, 5), "Linear Algebra"),
  ((5, 6), "Root Finding and Calculus"),
  ((6, 1), "Geometric Classes"),
  ((6, 2), "Elementary Geometric Calculations"),
  ((6, 3), "Intermediate Geometric Calculations"),
  ((6, 4), "Advanced Geometric Computations")]

/-- `SECTION_NAMES.get((chapter, section), "")`. -/
def sectionName (c s : Nat) : String :=
  (List.lookup (c, s) SECTION_NAMES).getD ""

/-! ### Entries -/

/-- The tuple `(chapter, section, subsection, name, file)` built on line 64. -/
structure Entry where
  chapter : Nat
  sectionNo : Nat
  subsection : Option Nat
  name : String
  file : String
deriving DecidableEq, Repr

/-- Entry built from a parsed file name. -/
def entryOf (file : String) (p : Nat × Nat × Option Nat × String) : Entry :=
  { chapter := p.1, sectionNo := p.2.1, subsection := p.2.2.1,
    name := p.2.2.2, file := file }

/-- The collection loop (lines 56-65): skip non-matching names, raise
`AssertionError` when the embedded chapter number disagrees. -/
def collectEntries (chapter : Nat) : List (String × String) → Except String (List Entry)
  | [] => .ok []
  | (file, _) :: rest =>
    match parseFileName file with
    | none => collectEntries chapter rest
    | some p =>
      if p.1 = chapter then
        match collectEntries chapter rest with
        | .ok es => .ok (entryOf file p :: es)
        | .error e => .error e
      else .error "AssertionError"

/-! ### Python comparison of the entry tuples -/

/-- Comparison of two machine integers. -/
def cmpNat (m n : Nat) : Ordering :=
  if m < n then .lt else if n < m then .gt else .eq

/-- Python string comparison: lexicographic on code points. -/
def cmpChars : List Char → List Char → Ordering
  | [], [] => .eq
  | [], _ :: _ => .lt
  | _ :: _, [] => .gt
  | a :: as, b :: bs =>
    match cmpNat a.toNat b.toNat with
    | .eq => cmpChars as bs
    | o => o

def cmpStr (a b : String) : Ordering := cmpChars a.data b.data

/-- Python 3 comparison of the optional subsection: comparing `None`
with an `int` raises `TypeError`. -/
def cmpSub : Option Nat → Option Nat → Except String Ordering
  | none, none => .ok .eq
  | some a, some b => .ok (cmpNat a b)
  | _, _ => .error "TypeError"

/-- Python 3 comparison of two entry tuples. -/
def cmpE (a b : Entry) : Except String Ordering :=
  match cmpNat a.chapter b.chapter with
  | .eq =>
    match cmpNat a.sectionNo b.sectionNo with
    | .eq =>
      match cmpSub a.subsection b.subsection with
      | .error e => .error e
      | .ok .eq =>
        match cmpStr a.name b.name with
        | .eq => .ok (cmpStr a.file b.file)
        | o => .ok o
      | .ok o => .ok o
    | o => .ok o
  | o => .ok o

/-- The same comparison with `None` below every `int` (the total order the
entries are in whenever `sorted` succeeds; used only in proofs). -/
def cmpSubT : Option Nat → Option Nat → Ordering
  | none, none => .eq
  | some a, some b => cmpNat a b
  | none, some _ => .lt
  | some _, none => .gt

def cmpT (a b : Entry) : Ordering :=
  match cmpNat a.chapter b.chapter with
  | .eq =>
    match cmpNat a.sectionNo b.sectionNo with
    | .eq =>
      match cmpSubT a.subsection b.subsection with
      | .eq =>
        match cmpStr a.name b.name with
        | .eq => cmpStr a.file b.file
        | o => o
      | o => o
    | o => o
  | o => o

/-- `leT a b` iff `a` may precede `b` in a sorted list. -/
def leT (a b : Entry) : Prop := cmpT a b ≠ .gt

instance : DecidablePred fun p : Entry × Entry => leT p.1 p.2 := fun _ => by
  unfold leT; infer_instance

instance (a b : Entry) : Decidable (leT a b) := by unfold leT; infer_instance

/-- `sorted(entries)`, modelled as an insertion sort that propagates the
`TypeError` raised by an unsupported comparison.  (For these tuples an
incomparable pair admits no transitive mediator, so any comparison sort
raises exactly when such a pair is present; see `sortE_ok_iff` below.) -/
def insertE (x : Entry) : List Entry → Except String (List Entry)
  | [] => .ok [x]
  | h :: t =>
    match cmpE x h with
    | .error e => .error e
    | .ok .lt => .ok (x :: h :: t)
    | .ok _ =>
      match insertE x t with
      | .ok r => .ok (h :: r)
      | .error e => .error e

def sortE : List Entry → Except String (List Entry)
  | [] => .ok []
  | h :: t =>
    match sortE t with
    | .ok r => insertE h r
    | .error e => .error e

/-! ### Output items

Each `fout.write` call of `gen_chapter` is one `Item`; `render` produces the
exact string written.  The numeric fields of `sectionHeader`, the
`sub`/`sec` fields of `subsectionHeader`/`content` record the values of the
corresponding Python variables at the write and are not printed. -/

inductive Item where
  | chapterLine (nm : String)
  | sectionHeader (c s : Nat) (title : String)
  | setCounterSection (s : Nat)
  | setCounterSubsection
  | subsectionHeader (s : Nat) (sub : Option Nat) (txt : String)
  | beginLst
  | content (sec : Nat) (txt : String)
  | endLst
deriving DecidableEq, Repr

def render : Item → String
  | .chapterLine nm => "\\chapter\x7b" ++ replaceChar nm '-' ' ' ++ "\x7d\n"
  | .sectionHeader _ _ t => "\n\\section\x7b" ++ t ++ "\x7d\n"
  | .setCounterSection s => "\\setcounter\x7bsection\x7d\x7b" ++ natStr s ++ "\x7d\n"
  | .setCounterSubsection => "\\setcounter\x7bsubsection\x7d\x7b0\x7d\n"
  | .subsectionHeader _ _ t => "\\subsection\x7b" ++ t ++ "\x7d\n"
  | .beginLst => "\\begin\x7blstlisting\x7d\n"
  | .content _ t => t
  | .endLst => "\\end\x7blstlisting\x7d\n"

/-- Python truthiness of the optional subsection (`if subsection:`):
`None` and `0` are falsy. -/
def truthy : Option Nat → Bool
  | none => false
  | some k => k != 0

/-- `open(join(dirname, file)).read()`: contents of a listed file. -/
def readFile (listing : List (String × String)) (f : String) : String :=
  ((listing.find? fun p => p.1 == f).map (·.2)).getD ""

/-- One iteration of the output loop (lines 68-84) for entry `e` with the
`prev_section` tracker `prev`; returns the writes and the new tracker. -/
def emitEntry (listing : List (String × String)) (prev : Option Nat) (e : Entry) :
    List Item × Option Nat :=
  if e.sectionNo < 1 then ([], prev)
  else
    let hdr : List Item :=
      if some e.sectionNo ≠ prev then
        [.sectionHeader e.chapter e.sectionNo (sectionName e.chapter e.sectionNo),
         .setCounterSection e.sectionNo] ++
          (if truthy e.subsection then [.setCounterSubsection] else [])
      else []
    let sub : List Item :=
      if truthy e.subsection then
        [.subsectionHeader e.sectionNo e.subsection (replaceChar e.name '_' ' ')]
      else []
    (hdr ++ sub ++
      [.beginLst, .content e.sectionNo (readFile listing e.file), .endLst],
     some e.sectionNo)

def emitAll (listing : List (String × String)) (prev : Option Nat) :
    List Entry → List Item
  | [] => []
  | e :: es =>
    let (its, p') := emitEntry listing prev e
    its ++ emitAll listing p' es

/-- `gen_chapter(dirname, chapter, chapter_name)`: the sequence of writes to
`chapter<N>.tex` together with the outcome (`.error` when the run dies with
`AssertionError`/`TypeError` after having written only the chapter line). -/
def genChapter (chapter : Nat) (chapterName : String)
    (listing : List (String × String)) : List Item × Except String Unit :=
  match collectEntries chapter listing with
  | .error e => ([.chapterLine chapterName], .error e)
  | .ok entries =>
    match sortE entries with
    | .error e => ([.chapterLine chapterName], .error e)
    | .ok sorted => (.chapterLine chapterName :: emitAll listing none sorted, .ok ())

/-- Full text of the output file. -/
def renderAll (items : List Item) : String := String.join (items.map render)

/-- `f'chapter{chapter}.tex'`. -/
def outFileName (chapter : Nat) : String := "chapter" ++ natStr chapter ++ ".tex"

/-- The `__main__` loop: one write per matching root directory, in root
enumeration order.  An unhandled `AssertionError`/`TypeError` inside
`gen_chapter` propagates out of the loop and kills the process, so the
failing chapter's partial file is the last write and later directories
are never processed. -/
def runMain : List (String × List (String × String)) → List (String × String)
  | [] => []
  | d :: t =>
    match parseDirName d.1 with
    | none => runMain t
    | some p =>
      match genChapter p.1 p.2 d.2 with
      | (items, .error _) => [(outFileName p.1, renderAll items)]
      | (items, .ok _) => (outFileName p.1, renderAll items) :: runMain t

/-- Final contents of file `f` after a run: the last write wins
(`open(..., 'w')` truncates). -/
def lastWrite (ws : List (String × String)) (f : String) : Option String :=
  ((ws.reverse.find? fun p => p.1 == f).map (·.2))

/-! ### Derived views of the output used to state the claims -/

/-- The verbatim blocks of the output: the contents written between a
`\begin{lstlisting}` marker and the matching `\end{lstlisting}` marker. -/
def extractBlocks : List Item → List String
  | .beginLst :: .content _ t :: .endLst :: rest => t :: extractBlocks rest
  | _ :: rest => extractBlocks rest
  | [] => []

/-- Section numbers of the emitted section headers, in output order. -/
def headerSecs : List Item → List Nat
  | [] => []
  | .sectionHeader _ s _ :: r => s :: headerSecs r
  | _ :: r => headerSecs r

/-- The emitted subsection headers `(section, subsection, text)`. -/
def subHeaders : List Item → List (Nat × Option Nat × String)
  | [] => []
  | .subsectionHeader s sub t :: r => (s, sub, t) :: subHeaders r
  | _ :: r => subHeaders r

/-- The entries that survive the `section < 1` filter, in processing order
(defined only when the run succeeds). -/
def keptSorted (chapter : Nat) (listing : List (String × String)) : List Entry :=
  match collectEntries chapter listing with
  | .error _ => []
  | .ok es =>
    match sortE es with
    | .error _ => []
    | .ok r => r.filter fun e => decide (1 ≤ e.sectionNo)

/-! ### Proof-side definitions -/

/-- Lexicographic composition of comparators. -/
def Lex2 {α : Type} (f g : α → α → Ordering) (a b : α) : Ordering :=
  match f a b with
  | .eq => g a b
  | o => o

/-- Comparator obtained by comparing a projection. -/
def liftCmp {α β : Type} (p : α → β) (base : β → β → Ordering) (a b : α) : Ordering :=
  base (p a) (p b)

/-- Lawfulness of a comparator: swap antisymmetry, congruence of equal
elements, transitivity of `lt`. -/
def CmpLawful {α : Type} (f : α → α → Ordering) : Prop :=
  (∀ a b, f a b = (f b a).swap) ∧
  (∀ a b, f a b = .eq → ∀ c, f a c = f b c) ∧
  (∀ a b c, f a b = .lt → f b c = .lt → f a c = .lt)

/-- `a` and `b` are comparable (their Python comparison does not raise). -/
def cmpOk (a b : Entry) : Prop := ∃ o, cmpE a b = .ok o

/-- Every pair of entries in the list is comparable: exactly the condition
under which `sorted(entries)` succeeds. -/
def PComp (l : List Entry) : Prop := ∀ a ∈ l, ∀ b ∈ l, cmpOk a b

/-- Some listed file matches `FILE_RE` with a chapter number different from
`chapter` (the condition that fires the `assert`). -/
def hasMismatch (chapter : Nat) (listing : List (String × String)) : Bool :=
  listing.any fun p =>
    match parseFileName p.1 with
    | some q => q.1 != chapter
    | none => false

/-- The entry contributed by one listed file, if any. -/
def parseEnt (chapter : Nat) (p : String × String) : Option Entry :=
  match parseFileName p.1 with
  | some q => if q.1 = chapter then some (entryOf p.1 q) else none
  | none => none

/-- Chapter numbers of the root directories matching `DIR_RE`, in
enumeration order. -/
def dirChapters (root : List (String × List (String × String))) : List Nat :=
  root.filterMap fun d => (parseDirName d.1).map (·.1)

/-- Two root trees with the same directories, file names and contents, up
to filesystem enumeration order (of the root and of each directory). -/
def TreeEquiv (r1 r2 : List (String × List (String × String))) : Prop :=
  ∃ r', r1.Perm r' ∧ List.Forall₂ (fun a b => a.1 = b.1 ∧ a.2.Perm b.2) r' r2

/-- Value of a digit list, most significant first (used to invert
`natDigits`). -/
def evalDigits (l : List Nat) : Nat := l.foldl (fun a d => a * 10 + d) 0

/-! ### Decimal printing is injective -/

theorem evalDigits_append_last (l : List Nat) (d : Nat) :
    evalDigits (l ++ [d]) = evalDigits l * 10 + d := by
  unfold evalDigits
  rw [List.foldl_append]
  rfl

theorem natDigitsAux_eval : ∀ (fuel n : Nat), n < fuel →
    evalDigits (natDigitsAux fuel n) = n := by
  intro fuel
  induction fuel with
  | zero => intro n h; omega
  | succ fuel ih =>
    intro n h
    unfold natDigitsAux
    by_cases h10 : n < 10
    · rw [if_pos h10]
      unfold evalDigits
      simp
    · rw [if_neg h10]
      rw [evalDigits_append_last]
      have hdiv : n / 10 < n := Nat.div_lt_self (by omega) (by omega)
      rw [ih (n / 10) (by omega)]
      omega

theorem natDigitsAux_lt : ∀ (fuel n : Nat), n < fuel →
    ∀ d ∈ natDigitsAux fuel n, d < 10 := by
  intro fuel
  induction fuel with
  | zero => intro n h; omega
  | succ fuel ih =>
    intro n h d hd
    unfold natDigitsAux at hd
    by_cases h10 : n < 10
    · rw [if_pos h10] at hd
      rw [List.mem_singleton] at hd
      omega
    · rw [if_neg h10] at hd
      rcases List.mem_append.mp hd with h1 | h1
      · have hdiv : n / 10 < n := Nat.div_lt_self (by omega) (by omega)
        exact ih (n / 10) (by omega) d h1
      · rw [List.mem_singleton] at h1
        subst h1
        exact Nat.mod_lt n (by omega)

theorem digitChar10_inj : ∀ d1 < 10, ∀ d2 < 10,
    digitChar10 d1 = digitChar10 d2 → d1 = d2 := by decide

theorem map_digitChar10_inj : ∀ (l1 l2 : List Nat), (∀ d ∈ l1, d < 10) →
    (∀ d ∈ l2, d < 10) → l1.map digitChar10 = l2.map digitChar10 → l1 = l2 := by
  intro l1
  induction l1 with
  | nil =>
    intro l2 _ _ h
    cases l2 with
    | nil => rfl
    | cons b t => exact List.noConfusion h
  | cons a t1 ih =>
    intro l2 hb1 hb2 h
    cases l2 with
    | nil => exact List.noConfusion h
    | cons b t2 =>
      rw [List.map_cons, List.map_cons, List.cons.injEq] at h
      rw [digitChar10_inj a (hb1 a (List.mem_cons_self a t1)) b
        (hb2 b (List.mem_cons_self b t2)) h.1]
      rw [ih t2 (fun d hd => hb1 d (List.mem_cons_of_mem a hd))
        (fun d hd => hb2 d (List.mem_cons_of_mem b hd)) h.2]

theorem natStr_inj {a b : Nat} (h : natStr a = natStr b) : a = b := by
  unfold natStr at h
  injection h with h1
  have hd : natDigits a = natDigits b :=
    map_digitChar10_inj _ _ (natDigitsAux_lt (a + 1) a (Nat.lt_succ_self a))
      (natDigitsAux_lt (b + 1) b (Nat.lt_succ_self b)) h1
  have ha := natDigitsAux_eval (a + 1) a (Nat.lt_succ_self a)
  have hb := natDigitsAux_eval (b + 1) b (Nat.lt_succ_self b)
  unfold natDigits at hd
  rw [hd] at ha
  rw [ha] at hb
  exact hb

theorem string_data_append (a b : String) : (a ++ b).data = a.data ++ b.data := by
  cases a; cases b; rfl

theorem outFileName_injective : Function.Injective outFileName := by
  intro a b h
  unfold outFileName at h
  have hdata := congrArg String.data h
  rw [string_data_append, string_data_append, string_data_append,
    string_data_append] at hdata
  have h1 := List.append_cancel_right hdata
  have h2 := List.append_cancel_left h1
  apply natStr_inj
  cases hs1 : natStr a
  cases hs2 : natStr b
  rw [hs1, hs2] at h2
  rename_i d1 d2
  simp only at h2
  rw [h2]

/-! ### Comparator lemmas -/

theorem lex2_eq_iff {α : Type} {f g : α → α → Ordering} {a b : α} :
    Lex2 f g a b = .eq ↔ f a b = .eq ∧ g a b = .eq := by
  unfold Lex2; cases f a b <;> simp

theorem lex2_ne_gt {α : Type} {f g : α → α → Ordering} {a b : α}
    (h : Lex2 f g a b ≠ .gt) : f a b ≠ .gt := by
  unfold Lex2 at h; cases hf : f a b <;> simp [hf] at h ⊢

theorem lex2_ne_gt_of_eq {α : Type} {f g : α → α → Ordering} {a b : α}
    (h : Lex2 f g a b ≠ .gt) (hf : f a b = .eq) : g a b ≠ .gt := by
  unfold Lex2 at h; rw [hf] at h; exact h

theorem lex2_app_lt {α : Type} {f g : α → α → Ordering} {a b : α}
    (h : f a b = .lt) : Lex2 f g a b = .lt := by unfold Lex2; rw [h]

theorem lex2_app_gt {α : Type} {f g : α → α → Ordering} {a b : α}
    (h : f a b = .gt) : Lex2 f g a b = .gt := by unfold Lex2; rw [h]

theorem lex2_app_eq {α : Type} {f g : α → α → Ordering} {a b : α}
    (h : f a b = .eq) : Lex2 f g a b = g a b := by unfold Lex2; rw [h]

theorem lex2_lawful {α : Type} {f g : α → α → Ordering}
    (hf : CmpLawful f) (hg : CmpLawful g) : CmpLawful (Lex2 f g) := by
  obtain ⟨hfs, hfc, hft⟩ := hf
  obtain ⟨hgs, hgc, hgt⟩ := hg
  refine ⟨?_, ?_, ?_⟩
  · intro a b
    have hs := hfs a b
    cases hf1 : f a b <;> rw [hf1] at hs
    · have hg1 : f b a = .gt := by
        cases hg1 : f b a <;> rw [hg1] at hs <;> first | rfl | exact absurd hs (by decide)
      rw [lex2_app_lt hf1, lex2_app_gt hg1]; rfl
    · have hg1 : f b a = .eq := by
        cases hg1 : f b a <;> rw [hg1] at hs <;> first | rfl | exact absurd hs (by decide)
      rw [lex2_app_eq hf1, lex2_app_eq hg1]
      exact hgs a b
    · have hg1 : f b a = .lt := by
        cases hg1 : f b a <;> rw [hg1] at hs <;> first | rfl | exact absurd hs (by decide)
      rw [lex2_app_gt hf1, lex2_app_lt hg1]; rfl
  · intro a b hab c
    rw [lex2_eq_iff] at hab
    unfold Lex2
    rw [hfc a b hab.1 c, hgc a b hab.2 c]
  · intro a b c hab hbc
    cases hfab : f a b
    · cases hfbc : f b c
      · exact lex2_app_lt (hft a b c hfab hfbc)
      · have h1 : f c b = .eq := by rw [hfs c b, hfbc]; rfl
        have h2 : f a c = .lt := by
          rw [hfs a c, hfc c b h1 a, hfs b a, hfab]; rfl
        exact lex2_app_lt h2
      · rw [lex2_app_gt hfbc] at hbc; exact absurd hbc (by decide)
    · have hab' : g a b = .lt := by rw [lex2_app_eq hfab] at hab; exact hab
      cases hfbc : f b c
      · have h2 : f a c = .lt := by rw [hfc a b hfab c, hfbc]
        exact lex2_app_lt h2
      · have hbc' : g b c = .lt := by rw [lex2_app_eq hfbc] at hbc; exact hbc
        have h2 : f a c = .eq := by rw [hfc a b hfab c, hfbc]
        rw [lex2_app_eq h2]
        exact hgt a b c hab' hbc'
      · rw [lex2_app_gt hfbc] at hbc; exact absurd hbc (by decide)
    · rw [lex2_app_gt hfab] at hab; exact absurd hab (by decide)

theorem liftCmp_lawful {α β : Type} (p : α → β) (base : β → β → Ordering)
    (hswap : ∀ x y, base x y = (base y x).swap)
    (heq : ∀ x y, base x y = .eq → x = y)
    (htr : ∀ x y z, base x y = .lt → base y z = .lt → base x z = .lt) :
    CmpLawful (liftCmp p base) := by
  refine ⟨fun a b => hswap _ _, ?_, fun a b c => htr _ _ _⟩
  intro a b hab c
  unfold liftCmp at *
  rw [heq _ _ hab]

theorem cmpNat_swap (m n : Nat) : cmpNat m n = (cmpNat n m).swap := by
  unfold cmpNat
  rcases Nat.lt_trichotomy m n with h | h | h
  · simp [h, Nat.lt_asymm h, Ordering.swap]
  · subst h; simp [Nat.lt_irrefl, Ordering.swap]
  · simp [h, Nat.lt_asymm h, Ordering.swap]

theorem cmpNat_eqSound {m n : Nat} (h : cmpNat m n = .eq) : m = n := by
  unfold cmpNat at h
  by_cases h1 : m < n
  · simp [h1] at h
  · by_cases h2 : n < m
    · simp [h1, h2] at h
    · omega

theorem cmpNat_ltSound {m n : Nat} (h : cmpNat m n = .lt) : m < n := by
  unfold cmpNat at h
  by_cases h1 : m < n
  · exact h1
  · by_cases h2 : n < m <;> simp [h1, h2] at h

theorem cmpNat_lt_of_lt {m n : Nat} (h : m < n) : cmpNat m n = .lt := by
  unfold cmpNat; simp [h]

theorem cmpNat_refl (m : Nat) : cmpNat m m = .eq := by
  unfold cmpNat; simp

theorem cmpNat_trans {m n k : Nat} (h1 : cmpNat m n = .lt) (h2 : cmpNat n k = .lt) :
    cmpNat m k = .lt :=
  cmpNat_lt_of_lt (Nat.lt_trans (cmpNat_ltSound h1) (cmpNat_ltSound h2))

theorem cmpNat_ne_gt {m n : Nat} (h : cmpNat m n ≠ .gt) : m ≤ n := by
  unfold cmpNat at h
  by_cases h1 : m < n
  · omega
  · by_cases h2 : n < m <;> simp [h1, h2] at h <;> omega

theorem charToNat_inj {a b : Char} (h : a.toNat = b.toNat) : a = b := by
  have := Char.ofNat_toNat a
  rw [← this, h, Char.ofNat_toNat]

theorem cmpChars_cons (a b : Char) (as bs : List Char) :
    cmpChars (a :: as) (b :: bs) =
      (match cmpNat a.toNat b.toNat with
       | .eq => cmpChars as bs
       | o => o) := rfl

theorem cmpChars_cons_lt {a b : Char} {as bs : List Char}
    (h : cmpNat a.toNat b.toNat = .lt) : cmpChars (a :: as) (b :: bs) = .lt := by
  have e := cmpChars_cons a b as bs
  rw [h] at e
  exact e

theorem cmpChars_cons_gt {a b : Char} {as bs : List Char}
    (h : cmpNat a.toNat b.toNat = .gt) : cmpChars (a :: as) (b :: bs) = .gt := by
  have e := cmpChars_cons a b as bs
  rw [h] at e
  exact e

theorem cmpChars_cons_eq {a b : Char} {as bs : List Char}
    (h : cmpNat a.toNat b.toNat = .eq) :
    cmpChars (a :: as) (b :: bs) = cmpChars as bs := by
  have e := cmpChars_cons a b as bs
  rw [h] at e
  exact e

theorem cmpChars_swap (x y : List Char) : cmpChars x y = (cmpChars y x).swap := by
  induction x generalizing y with
  | nil => cases y <;> rfl
  | cons a as ih =>
    cases y with
    | nil => rfl
    | cons b bs =>
      have hs := cmpNat_swap a.toNat b.toNat
      cases hba : cmpNat b.toNat a.toNat <;> rw [hba] at hs
      · rw [cmpChars_cons_lt hba, cmpChars_cons_gt hs]; rfl
      · rw [cmpChars_cons_eq hba, cmpChars_cons_eq hs]
        exact ih bs
      · rw [cmpChars_cons_gt hba, cmpChars_cons_lt hs]; rfl

theorem cmpChars_eqSound : ∀ {x y : List Char}, cmpChars x y = .eq → x = y := by
  intro x
  induction x with
  | nil =>
    intro y h
    cases y with
    | nil => rfl
    | cons b bs => exact Ordering.noConfusion h
  | cons a as ih =>
    intro y h
    cases y with
    | nil => exact Ordering.noConfusion h
    | cons b bs =>
      cases hn : cmpNat a.toNat b.toNat
      · rw [cmpChars_cons_lt hn] at h; exact absurd h (by decide)
      · rw [cmpChars_cons_eq hn] at h
        rw [charToNat_inj (cmpNat_eqSound hn), ih h]
      · rw [cmpChars_cons_gt hn] at h; exact absurd h (by decide)

theorem cmpChars_trans : ∀ {x y z : List Char},
    cmpChars x y = .lt → cmpChars y z = .lt → cmpChars x z = .lt := by
  intro x
  induction x with
  | nil =>
    intro y z h1 h2
    cases y with
    | nil => exact h2
    | cons b bs =>
      cases z with
      | nil => exact Ordering.noConfusion h2
      | cons c cs => rfl
  | cons a as ih =>
    intro y z h1 h2
    cases y with
    | nil => exact Ordering.noConfusion h1
    | cons b bs =>
      cases z with
      | nil => exact Ordering.noConfusion h2
      | cons c cs =>
        cases hab : cmpNat a.toNat b.toNat
        · cases hbc : cmpNat b.toNat c.toNat
          · exact cmpChars_cons_lt (cmpNat_trans hab hbc)
          · have heq := charToNat_inj (cmpNat_eqSound hbc)
            subst heq
            exact cmpChars_cons_lt hab
          · rw [cmpChars_cons_gt hbc] at h2; exact absurd h2 (by decide)
        · have heq := charToNat_inj (cmpNat_eqSound hab)
          subst heq
          rw [cmpChars_cons_eq hab] at h1
          cases hbc : cmpNat a.toNat c.toNat
          · exact cmpChars_cons_lt hbc
          · rw [cmpChars_cons_eq hbc] at h2
            rw [cmpChars_cons_eq hbc]
            exact ih h1 h2
          · rw [cmpChars_cons_gt hbc] at h2; exact absurd h2 (by decide)
        · rw [cmpChars_cons_gt hab] at h1; exact absurd h1 (by decide)

theorem cmpStr_swap (x y : String) : cmpStr x y = (cmpStr y x).swap :=
  cmpChars_swap x.data y.data

theorem cmpStr_eqSound {x y : String} (h : cmpStr x y = .eq) : x = y := by
  cases x; cases y
  exact congrArg String.mk (cmpChars_eqSound h)

theorem cmpStr_trans {x y z : String} (h1 : cmpStr x y = .lt)
    (h2 : cmpStr y z = .lt) : cmpStr x z = .lt :=
  cmpChars_trans h1 h2

theorem cmpSubT_swap (x y : Option Nat) : cmpSubT x y = (cmpSubT y x).swap := by
  cases x <;> cases y
  all_goals first
    | rfl
    | exact cmpNat_swap _ _

theorem cmpSubT_eqSound {x y : Option Nat} (h : cmpSubT x y = .eq) : x = y := by
  cases x <;> cases y
  all_goals first
    | rfl
    | exact Ordering.noConfusion h
    | exact congrArg some (cmpNat_eqSound h)

theorem cmpSubT_trans {x y z : Option Nat} (h1 : cmpSubT x y = .lt)
    (h2 : cmpSubT y z = .lt) : cmpSubT x z = .lt := by
  cases x <;> cases y <;> cases z
  all_goals first
    | exact Ordering.noConfusion h1
    | exact Ordering.noConfusion h2
    | rfl
    | exact cmpNat_trans h1 h2

/-- `cmpT` as a lexicographic composition of lawful comparators. -/
def cmpTL : Entry → Entry → Ordering :=
  Lex2 (liftCmp Entry.chapter cmpNat)
    (Lex2 (liftCmp Entry.sectionNo cmpNat)
      (Lex2 (liftCmp Entry.subsection cmpSubT)
        (Lex2 (liftCmp Entry.name cmpStr) (liftCmp Entry.file cmpStr))))

theorem cmpT_eq_cmpTL : cmpT = cmpTL := by
  funext a b
  unfold cmpT cmpTL Lex2 liftCmp
  cases cmpNat a.chapter b.chapter <;> rfl

theorem cmpT_lawful : CmpLawful cmpT := by
  rw [cmpT_eq_cmpTL]
  unfold cmpTL
  apply lex2_lawful (liftCmp_lawful _ _ cmpNat_swap (fun _ _ => cmpNat_eqSound)
    (fun _ _ _ => cmpNat_trans))
  apply lex2_lawful (liftCmp_lawful _ _ cmpNat_swap (fun _ _ => cmpNat_eqSound)
    (fun _ _ _ => cmpNat_trans))
  apply lex2_lawful (liftCmp_lawful _ _ cmpSubT_swap (fun _ _ => cmpSubT_eqSound)
    (fun _ _ _ => cmpSubT_trans))
  exact lex2_lawful (liftCmp_lawful _ _ cmpStr_swap (fun _ _ => cmpStr_eqSound)
    (fun _ _ _ => cmpStr_trans))
    (liftCmp_lawful _ _ cmpStr_swap (fun _ _ => cmpStr_eqSound)
    (fun _ _ _ => cmpStr_trans))

theorem cmpT_eqSound {a b : Entry} (h : cmpT a b = .eq) : a = b := by
  rw [cmpT_eq_cmpTL] at h
  unfold cmpTL at h
  rw [lex2_eq_iff] at h
  obtain ⟨h1, h⟩ := h
  rw [lex2_eq_iff] at h
  obtain ⟨h2, h⟩ := h
  rw [lex2_eq_iff] at h
  obtain ⟨h3, h⟩ := h
  rw [lex2_eq_iff] at h
  obtain ⟨h4, h5⟩ := h
  cases a; cases b
  simp only [liftCmp] at h1 h2 h3 h4 h5
  simp only [Entry.mk.injEq]
  exact ⟨cmpNat_eqSound h1, cmpNat_eqSound h2, cmpSubT_eqSound h3,
    cmpStr_eqSound h4, cmpStr_eqSound h5⟩

theorem cmpT_swap (a b : Entry) : cmpT a b = (cmpT b a).swap := cmpT_lawful.1 a b

theorem cmpT_refl (a : Entry) : cmpT a a = .eq := by
  have hs := cmpT_swap a a
  cases h : cmpT a a <;> rw [h] at hs
  all_goals first
    | rfl
    | exact absurd hs (by decide)

theorem leT_refl (a : Entry) : leT a a := by
  unfold leT; rw [cmpT_refl]; decide

theorem leT_of_eq {a b : Entry} (h : cmpT a b = .eq) : leT a b := by
  unfold leT; rw [h]; decide

theorem leT_trans {a b c : Entry} (h1 : leT a b) (h2 : leT b c) : leT a c := by
  unfold leT at *
  cases hab : cmpT a b <;> rw [hab] at h1
  · cases hbc : cmpT b c <;> rw [hbc] at h2
    · rw [cmpT_lawful.2.2 a b c hab hbc]; decide
    · rw [cmpT_eqSound hbc] at hab; rw [hab]; decide
    · exact absurd rfl h2
  · rw [cmpT_eqSound hab]; exact h2
  · exact absurd rfl h1

theorem leT_antisymm {a b : Entry} (h1 : leT a b) (h2 : leT b a) : a = b := by
  unfold leT at *
  have hs := cmpT_swap a b
  cases hab : cmpT a b <;> rw [hab] at hs
  · exfalso
    apply h2
    cases hba : cmpT b a <;> rw [hba] at hs
    all_goals first
      | rfl
      | exact absurd hs (by decide)
  · exact cmpT_eqSound hab
  · exact absurd hab h1

theorem leT_total (a b : Entry) : leT a b ∨ leT b a := by
  have hs := cmpT_swap a b
  cases hab : cmpT a b <;> rw [hab] at hs
  · left; unfold leT; rw [hab]; decide
  · left; unfold leT; rw [hab]; decide
  · right; unfold leT
    cases hba : cmpT b a <;> rw [hba] at hs
    all_goals first
      | decide
      | exact absurd hs (by decide)

/-! ### Relating the Python comparison to the total order -/

theorem cmpSub_error_val {x y : Option Nat} {e : String}
    (h : cmpSub x y = .error e) : e = "TypeError" := by
  cases x <;> cases y
  all_goals first
    | exact Except.noConfusion h
    | (injection h with h1; exact h1.symm)
    | injection h

theorem cmpSub_ok_sub {x y : Option Nat} {o : Ordering}
    (h : cmpSub x y = .ok o) : cmpSubT x y = o := by
  cases x <;> cases y
  all_goals first
    | exact Except.noConfusion h
    | injection h
    | (injection h with h1; exact h1)

theorem cmpE_error_val {a b : Entry} {e : String}
    (h : cmpE a b = .error e) : e = "TypeError" := by
  unfold cmpE at h
  split at h
  · split at h
    · split at h
      · rename_i hsub
        injection h with h1
        subst h1
        exact cmpSub_error_val hsub
      · split at h <;> exact Except.noConfusion h
      · exact Except.noConfusion h
    · exact Except.noConfusion h
  · exact Except.noConfusion h

theorem cmpE_ok_cmpT {a b : Entry} {o : Ordering}
    (h : cmpE a b = .ok o) : cmpT a b = o := by
  rw [cmpT_eq_cmpTL]
  unfold cmpTL
  unfold cmpE at h
  split at h
  · rename_i hch
    rw [lex2_app_eq (show liftCmp Entry.chapter cmpNat a b = .eq from hch)]
    split at h
    · rename_i hsec
      rw [lex2_app_eq (show liftCmp Entry.sectionNo cmpNat a b = .eq from hsec)]
      split at h
      · exact Except.noConfusion h
      · rename_i hsub
        rw [lex2_app_eq
          (show liftCmp Entry.subsection cmpSubT a b = .eq from cmpSub_ok_sub hsub)]
        split at h
        · rename_i hnm
          rw [lex2_app_eq (show liftCmp Entry.name cmpStr a b = .eq from hnm)]
          rw [Except.ok.injEq] at h
          subst h
          rfl
        · rename_i hjunk hnm
          rw [Except.ok.injEq] at h
          subst h
          cases hv : cmpStr a.name b.name
          · exact lex2_app_lt (show liftCmp Entry.name cmpStr a b = .lt from hv)
          · exact absurd hv hnm
          · exact lex2_app_gt (show liftCmp Entry.name cmpStr a b = .gt from hv)
      · rename_i o2 hsub hne
        rw [Except.ok.injEq] at h
        subst h
        have hsT : cmpSubT a.subsection b.subsection = o2 := cmpSub_ok_sub hne
        cases o2
        · exact lex2_app_lt (show liftCmp Entry.subsection cmpSubT a b = .lt from hsT)
        · exact absurd rfl hsub
        · exact lex2_app_gt (show liftCmp Entry.subsection cmpSubT a b = .gt from hsT)
    · rename_i o2 hne
      rw [Except.ok.injEq] at h
      subst h
      cases hv : cmpNat a.sectionNo b.sectionNo
      · exact lex2_app_lt (show liftCmp Entry.sectionNo cmpNat a b = .lt from hv)
      · exact absurd hv hne
      · exact lex2_app_gt (show liftCmp Entry.sectionNo cmpNat a b = .gt from hv)
  · rename_i o2 hne
    rw [Except.ok.injEq] at h
    subst h
    cases hv : cmpNat a.chapter b.chapter
    · exact lex2_app_lt (show liftCmp Entry.chapter cmpNat a b = .lt from hv)
    · exact absurd hv hne
    · exact lex2_app_gt (show liftCmp Entry.chapter cmpNat a b = .gt from hv)

theorem cmpE_ok_leT {a b : Entry} {o : Ordering} (h : cmpE a b = .ok o)
    (hno : o ≠ .gt) : leT a b := by
  unfold leT
  rw [cmpE_ok_cmpT h]
  exact hno

/-- A pair of entries whose Python comparison raises `TypeError`. -/
theorem cmpE_err_of_mixed {a b : Entry} (hch : a.chapter = b.chapter)
    (hsec : a.sectionNo = b.sectionNo)
    (hmix : a.subsection.isSome ≠ b.subsection.isSome) :
    cmpE a b = .error "TypeError" := by
  unfold cmpE
  rw [hch, hsec, cmpNat_refl, cmpNat_refl]
  have hsub : cmpSub a.subsection b.subsection = .error "TypeError" := by
    cases ha : a.subsection <;> cases hb : b.subsection <;>
      rw [ha, hb] at hmix <;> first | rfl | exact absurd rfl hmix
  rw [hsub]

theorem cmpE_ok_of_not_mixed {a b : Entry}
    (h : ¬(a.chapter = b.chapter ∧ a.sectionNo = b.sectionNo ∧
      a.subsection.isSome ≠ b.subsection.isSome)) : cmpOk a b := by
  unfold cmpOk
  unfold cmpE
  cases hch : cmpNat a.chapter b.chapter
  · exact ⟨.lt, rfl⟩
  · cases hsec : cmpNat a.sectionNo b.sectionNo
    · exact ⟨.lt, rfl⟩
    · have hsub : ∃ o', cmpSub a.subsection b.subsection = .ok o' := by
        have hmix : a.subsection.isSome = b.subsection.isSome := by
          by_contra hmix
          exact h ⟨cmpNat_eqSound hch, cmpNat_eqSound hsec, hmix⟩
        cases ha : a.subsection <;> cases hb : b.subsection <;>
          rw [ha, hb] at hmix
        · exact ⟨.eq, rfl⟩
        · exact absurd hmix (by simp)
        · exact absurd hmix (by simp)
        · exact ⟨_, rfl⟩
      obtain ⟨o', ho'⟩ := hsub
      rw [ho']
      cases o'
      · exact ⟨.lt, rfl⟩
      · cases cmpStr a.name b.name
        · exact ⟨.lt, rfl⟩
        · exact ⟨_, rfl⟩
        · exact ⟨.gt, rfl⟩
      · exact ⟨.gt, rfl⟩
    · exact ⟨.gt, rfl⟩
  · exact ⟨.gt, rfl⟩

theorem cmpOk_refl (a : Entry) : cmpOk a a :=
  cmpE_ok_of_not_mixed (by intro ⟨_, _, hmix⟩; exact hmix rfl)

theorem not_mixed_of_cmpOk {a b : Entry} (h : cmpOk a b) :
    ¬(a.chapter = b.chapter ∧ a.sectionNo = b.sectionNo ∧
      a.subsection.isSome ≠ b.subsection.isSome) := by
  intro ⟨h1, h2, h3⟩
  obtain ⟨o, ho⟩ := h
  rw [cmpE_err_of_mixed h1 h2 h3] at ho
  exact Except.noConfusion ho

theorem cmpOk_symm {a b : Entry} (h : cmpOk a b) : cmpOk b a := by
  apply cmpE_ok_of_not_mixed
  intro ⟨h1, h2, h3⟩
  exact not_mixed_of_cmpOk h ⟨h1.symm, h2.symm, fun hx => h3 (hx.symm)⟩

/-! ### Order projections -/

theorem leT_chapter {a b : Entry} (h : leT a b) : a.chapter ≤ b.chapter := by
  unfold leT at h
  rw [cmpT_eq_cmpTL] at h
  unfold cmpTL at h
  have h1 : liftCmp Entry.chapter cmpNat a b ≠ .gt := lex2_ne_gt h
  have h2 : cmpNat a.chapter b.chapter ≠ .gt := h1
  exact cmpNat_ne_gt h2

theorem leT_sec {a b : Entry} (h : leT a b) (hch : a.chapter = b.chapter) :
    a.sectionNo ≤ b.sectionNo := by
  unfold leT at h
  rw [cmpT_eq_cmpTL] at h
  unfold cmpTL at h
  have h2 := lex2_ne_gt_of_eq h
    (show liftCmp Entry.chapter cmpNat a b = .eq by
      unfold liftCmp; rw [hch]; exact cmpNat_refl _)
  have h3 : liftCmp Entry.sectionNo cmpNat a b ≠ .gt := lex2_ne_gt h2
  have h4 : cmpNat a.sectionNo b.sectionNo ≠ .gt := h3
  exact cmpNat_ne_gt h4

theorem leT_sub {a b : Entry} (h : leT a b) (hch : a.chapter = b.chapter)
    (hsec : a.sectionNo = b.sectionNo) :
    cmpSubT a.subsection b.subsection ≠ .gt := by
  unfold leT at h
  rw [cmpT_eq_cmpTL] at h
  unfold cmpTL at h
  have h2 := lex2_ne_gt_of_eq h
    (show liftCmp Entry.chapter cmpNat a b = .eq by
      unfold liftCmp; rw [hch]; exact cmpNat_refl _)
  have h3 := lex2_ne_gt_of_eq h2
    (show liftCmp Entry.sectionNo cmpNat a b = .eq by
      unfold liftCmp; rw [hsec]; exact cmpNat_refl _)
  have h4 : liftCmp Entry.subsection cmpSubT a b ≠ .gt := lex2_ne_gt h3
  exact h4

/-- The key step for sorting: a successful comparison with an element `h`
lying between `x` and `y` makes `x` and `y` comparable.  (There is no
transitive mediator between an incomparable pair.) -/
theorem cmpOk_of_between {x h y : Entry} (hxh : cmpOk x h) (hle1 : leT x h)
    (hle2 : leT h y) (hhy : cmpOk h y) : cmpOk x y := by
  apply cmpE_ok_of_not_mixed
  intro ⟨h1, h2, h3⟩
  have hch : h.chapter = x.chapter := by
    have := leT_chapter hle1
    have := leT_chapter hle2
    omega
  have hsec : h.sectionNo = x.sectionNo := by
    have := leT_sec hle1 hch.symm
    have := leT_sec hle2 (by rw [hch, h1])
    omega
  have k1 : x.subsection.isSome = h.subsection.isSome := by
    by_contra hmix
    exact not_mixed_of_cmpOk hxh ⟨hch.symm, hsec.symm, hmix⟩
  have k2 : h.subsection.isSome = y.subsection.isSome := by
    by_contra hmix
    exact not_mixed_of_cmpOk hhy ⟨by rw [hch, h1], by rw [hsec, h2], hmix⟩
  exact h3 (k1.trans k2)

/-! ### Sorting lemmas -/

theorem insertE_error_val : ∀ {acc : List Entry} {x : Entry} {e : String},
    insertE x acc = .error e → e = "TypeError" := by
  intro acc
  induction acc with
  | nil => intro x e h; exact Except.noConfusion h
  | cons hd t ih =>
    intro x e h
    unfold insertE at h
    split at h
    · rename_i herr
      injection h with h1
      subst h1
      exact cmpE_error_val herr
    · exact Except.noConfusion h
    · split at h
      · exact Except.noConfusion h
      · rename_i hrec
        injection h with h1
        subst h1
        exact ih hrec

theorem insertE_ok_of_all : ∀ {acc : List Entry} {x : Entry},
    (∀ y ∈ acc, cmpOk x y) → ∃ r, insertE x acc = .ok r := by
  intro acc
  induction acc with
  | nil => intro x _; exact ⟨[x], rfl⟩
  | cons hd t ih =>
    intro x hall
    obtain ⟨o, ho⟩ := hall hd (List.mem_cons_self hd t)
    obtain ⟨r, hr⟩ := ih fun y hy => hall y (List.mem_cons_of_mem hd hy)
    unfold insertE
    rw [ho]
    cases o
    · exact ⟨x :: hd :: t, rfl⟩
    · rw [hr]; exact ⟨hd :: r, rfl⟩
    · rw [hr]; exact ⟨hd :: r, rfl⟩

theorem insertE_ok_spec : ∀ {acc : List Entry} {x : Entry} {r : List Entry},
    List.Pairwise leT acc → PComp acc → insertE x acc = .ok r →
    (∀ y ∈ acc, cmpOk x y) ∧ List.Pairwise leT r ∧ r.Perm (x :: acc) ∧ PComp r := by
  intro acc
  induction acc with
  | nil =>
    intro x r _ _ h
    injection h with h1
    subst h1
    refine ⟨by simp, by simp, List.Perm.refl _, ?_⟩
    intro a ha b hb
    rw [List.mem_singleton] at ha hb
    subst ha; subst hb
    exact cmpOk_refl _
  | cons hd t ih =>
    intro x r hpw hpc h
    have hpwt : List.Pairwise leT t := hpw.of_cons
    have hhd_t : ∀ y ∈ t, leT hd y := (List.pairwise_cons.mp hpw).1
    have hpct : PComp t := fun a ha b hb =>
      hpc a (List.mem_cons_of_mem hd ha) b (List.mem_cons_of_mem hd hb)
    unfold insertE at h
    split at h
    · exact Except.noConfusion h
    · rename_i hcmp
      rw [Except.ok.injEq] at h
      subst h
      have hok_hd : cmpOk x hd := ⟨_, hcmp⟩
      have hleT : leT x hd := cmpE_ok_leT hcmp (by decide)
      have hall : ∀ y ∈ hd :: t, cmpOk x y := by
        intro y hy
        rcases List.mem_cons.mp hy with rfl | hyt
        · exact hok_hd
        · exact cmpOk_of_between hok_hd hleT (hhd_t y hyt)
            (hpc hd (List.mem_cons_self hd t) y (List.mem_cons_of_mem hd hyt))
      refine ⟨hall, ?_, List.Perm.refl _, ?_⟩
      · rw [List.pairwise_cons]
        refine ⟨?_, hpw⟩
        intro y hy
        rcases List.mem_cons.mp hy with rfl | hyt
        · exact hleT
        · exact leT_trans hleT (hhd_t y hyt)
      · intro a ha b hb
        rcases List.mem_cons.mp ha with rfl | hat
        · rcases List.mem_cons.mp hb with rfl | hbt
          · exact cmpOk_refl _
          · exact hall b hbt
        · rcases List.mem_cons.mp hb with rfl | hbt
          · exact cmpOk_symm (hall a hat)
          · exact hpc a hat b hbt
    · rename_i o2 hne hcmp
      split at h
      · rename_i r' hrec
        rw [Except.ok.injEq] at h
        subst h
        obtain ⟨hall_t, hpw_r', hperm_r', hpc_r'⟩ := ih hpwt hpct hrec
        have hok_hd : cmpOk x hd := ⟨_, hcmp⟩
        have hle_hd_x : leT hd x := by
          unfold leT
          rw [cmpT_swap hd x, cmpE_ok_cmpT hcmp]
          cases o2
          · exact absurd rfl hne
          · decide
          · decide
        have hall : ∀ y ∈ hd :: t, cmpOk x y := by
          intro y hy
          rcases List.mem_cons.mp hy with rfl | hyt
          · exact hok_hd
          · exact hall_t y hyt
        have hhd_r' : ∀ z ∈ r', cmpOk hd z := by
          intro z hz
          rcases List.mem_cons.mp (hperm_r'.subset hz) with rfl | hzt
          · exact cmpOk_symm hok_hd
          · exact hpc hd (List.mem_cons_self hd t) z (List.mem_cons_of_mem hd hzt)
        refine ⟨hall, ?_, ?_, ?_⟩
        · rw [List.pairwise_cons]
          refine ⟨?_, hpw_r'⟩
          intro z hz
          rcases List.mem_cons.mp (hperm_r'.subset hz) with rfl | hzt
          · exact hle_hd_x
          · exact hhd_t z hzt
        · exact (hperm_r'.cons hd).trans (List.Perm.swap x hd t)
        · intro a ha b hb
          rcases List.mem_cons.mp ha with rfl | har
          · rcases List.mem_cons.mp hb with rfl | hbr
            · exact cmpOk_refl _
            · exact hhd_r' b hbr
          · rcases List.mem_cons.mp hb with rfl | hbr
            · exact cmpOk_symm (hhd_r' a har)
            · exact hpc_r' a har b hbr
      · exact Except.noConfusion h

theorem sortE_ok_spec : ∀ {l r : List Entry}, sortE l = .ok r →
    r.Perm l ∧ List.Pairwise leT r ∧ PComp l := by
  intro l
  induction l with
  | nil =>
    intro r h
    injection h with h1
    subst h1
    exact ⟨List.Perm.refl _, by simp, fun a ha => absurd ha (List.not_mem_nil a)⟩
  | cons hd t ih =>
    intro r h
    unfold sortE at h
    split at h
    · rename_i rt hrt
      obtain ⟨hperm_t, hpw_t, hpc_t⟩ := ih hrt
      have hpc_rt : PComp rt := fun a ha b hb =>
        hpc_t a (hperm_t.subset ha) b (hperm_t.subset hb)
      obtain ⟨hall, hpw_r, hperm_r, _⟩ := insertE_ok_spec hpw_t hpc_rt h
      refine ⟨hperm_r.trans (hperm_t.cons hd), hpw_r, ?_⟩
      intro a ha b hb
      rcases List.mem_cons.mp ha with rfl | hat
      · rcases List.mem_cons.mp hb with rfl | hbt
        · exact cmpOk_refl _
        · exact hall b (hperm_t.symm.subset hbt)
      · rcases List.mem_cons.mp hb with rfl | hbt
        · exact cmpOk_symm (hall a (hperm_t.symm.subset hat))
        · exact hpc_t a hat b hbt
    · exact Except.noConfusion h

theorem sortE_ok_of_PComp : ∀ {l : List Entry}, PComp l → ∃ r, sortE l = .ok r := by
  intro l
  induction l with
  | nil => intro _; exact ⟨[], rfl⟩
  | cons hd t ih =>
    intro hpc
    have hpct : PComp t := fun a ha b hb =>
      hpc a (List.mem_cons_of_mem hd ha) b (List.mem_cons_of_mem hd hb)
    obtain ⟨rt, hrt⟩ := ih hpct
    have hperm_t := (sortE_ok_spec hrt).1
    unfold sortE
    rw [hrt]
    apply insertE_ok_of_all
    intro y hy
    rcases List.mem_cons.mp (List.mem_cons_of_mem hd (hperm_t.subset hy) : y ∈ hd :: t)
      with h' | h'
    · exact hpc hd (List.mem_cons_self hd t) y (List.mem_cons_of_mem hd (hperm_t.subset hy))
    · exact hpc hd (List.mem_cons_self hd t) y (List.mem_cons_of_mem hd (hperm_t.subset hy))

theorem sortE_error_val : ∀ {l : List Entry} {e : String},
    sortE l = .error e → e = "TypeError" := by
  intro l
  induction l with
  | nil => intro e h; exact Except.noConfusion h
  | cons hd t ih =>
    intro e h
    unfold sortE at h
    split at h
    · exact insertE_error_val h
    · rename_i herr
      injection h with h1
      subst h1
      exact ih herr

theorem PComp_perm {l1 l2 : List Entry} (hp : l1.Perm l2) (h : PComp l1) :
    PComp l2 :=
  fun a ha b hb => h a (hp.symm.subset ha) b (hp.symm.subset hb)

theorem sortE_perm_congr {l1 l2 : List Entry} (hp : l1.Perm l2) :
    sortE l1 = sortE l2 := by
  by_cases hc : PComp l1
  · obtain ⟨r1, h1⟩ := sortE_ok_of_PComp hc
    obtain ⟨r2, h2⟩ := sortE_ok_of_PComp (PComp_perm hp hc)
    obtain ⟨hp1, hw1, _⟩ := sortE_ok_spec h1
    obtain ⟨hp2, hw2, _⟩ := sortE_ok_spec h2
    have heq : r1 = r2 := by
      haveI : IsAntisymm Entry leT := ⟨fun _ _ ha hb => leT_antisymm ha hb⟩
      exact List.eq_of_perm_of_sorted (hp1.trans (hp.trans hp2.symm)) hw1 hw2
    rw [h1, h2, heq]
  · have hc2 : ¬ PComp l2 := fun hx => hc (PComp_perm hp.symm hx)
    have e1 : sortE l1 = .error "TypeError" := by
      cases hx : sortE l1 with
      | ok r => exact absurd (sortE_ok_spec hx).2.2 hc
      | error e => rw [sortE_error_val hx]
    have e2 : sortE l2 = .error "TypeError" := by
      cases hx : sortE l2 with
      | ok r => exact absurd (sortE_ok_spec hx).2.2 hc2
      | error e => rw [sortE_error_val hx]
    rw [e1, e2]

/-! ### Collection lemmas -/

theorem parseEnt_none {chapter : Nat} {f cont : String}
    (hq : parseFileName f = none) : parseEnt chapter (f, cont) = none := by
  simp only [parseEnt, hq]

theorem parseEnt_match {chapter : Nat} {f cont : String} {q : Nat × Nat × Option Nat × String}
    (hq : parseFileName f = some q) (hc : q.1 = chapter) :
    parseEnt chapter (f, cont) = some (entryOf f q) := by
  simp only [parseEnt, hq]
  rw [if_pos hc]

theorem collectEntries_cons_none {chapter : Nat} {f cont : String}
    {t : List (String × String)} (hq : parseFileName f = none) :
    collectEntries chapter ((f, cont) :: t) = collectEntries chapter t := by
  simp only [collectEntries, hq]

theorem collectEntries_cons_mismatch {chapter : Nat} {f cont : String}
    {t : List (String × String)} {q : Nat × Nat × Option Nat × String}
    (hq : parseFileName f = some q) (hc : ¬ q.1 = chapter) :
    collectEntries chapter ((f, cont) :: t) = .error "AssertionError" := by
  simp only [collectEntries, hq]
  rw [if_neg hc]

theorem collectEntries_cons_ok {chapter : Nat} {f cont : String}
    {t : List (String × String)} {q : Nat × Nat × Option Nat × String}
    {es : List Entry} (hq : parseFileName f = some q) (hc : q.1 = chapter)
    (ht : collectEntries chapter t = .ok es) :
    collectEntries chapter ((f, cont) :: t) = .ok (entryOf f q :: es) := by
  simp only [collectEntries, hq, ht]
  rw [if_pos hc]

theorem collectEntries_cons_err {chapter : Nat} {f cont : String}
    {t : List (String × String)} {q : Nat × Nat × Option Nat × String}
    {e : String} (hq : parseFileName f = some q) (hc : q.1 = chapter)
    (ht : collectEntries chapter t = .error e) :
    collectEntries chapter ((f, cont) :: t) = .error e := by
  simp only [collectEntries, hq, ht]
  rw [if_pos hc]

theorem collect_ok : ∀ {chapter : Nat} {l : List (String × String)},
    hasMismatch chapter l = false →
    collectEntries chapter l = .ok (l.filterMap (parseEnt chapter)) := by
  intro chapter l
  induction l with
  | nil => intro _; rfl
  | cons p t ih =>
    intro h
    obtain ⟨f, cont⟩ := p
    rw [hasMismatch, List.any_cons, Bool.or_eq_false_iff] at h
    obtain ⟨h1, h2⟩ := h
    have ih' := ih h2
    cases hq : parseFileName f
    · rw [collectEntries_cons_none hq]
      simp only [List.filterMap_cons]
      rw [parseEnt_none hq]
      exact ih'
    · rename_i q
      by_cases hc : q.1 = chapter
      · rw [collectEntries_cons_ok hq hc ih']
        simp only [List.filterMap_cons]
        rw [parseEnt_match hq hc]
      · exfalso
        rw [hq] at h1
        simp only [bne_eq_false_iff_eq] at h1
        exact hc h1

theorem collect_error : ∀ {chapter : Nat} {l : List (String × String)},
    hasMismatch chapter l = true →
    collectEntries chapter l = .error "AssertionError" := by
  intro chapter l
  induction l with
  | nil => intro h; simp [hasMismatch] at h
  | cons p t ih =>
    intro h
    obtain ⟨f, cont⟩ := p
    rw [hasMismatch, List.any_cons, Bool.or_eq_true] at h
    cases hq : parseFileName f
    · rw [collectEntries_cons_none hq]
      apply ih
      rcases h with h1 | h1
      · rw [hq] at h1
        exact Bool.noConfusion h1
      · exact h1
    · rename_i q
      by_cases hc : q.1 = chapter
      · have h2 : hasMismatch chapter t = true := by
          rcases h with h1 | h1
          · exfalso
            rw [hq] at h1
            simp only [bne_iff_ne, ne_eq] at h1
            exact h1 hc
          · exact h1
        exact collectEntries_cons_err hq hc (ih h2)
      · exact collectEntries_cons_mismatch hq hc

theorem parseEnt_mismatch {chapter : Nat} {f cont : String}
    {q : Nat × Nat × Option Nat × String}
    (hq : parseFileName f = some q) (hc : ¬ q.1 = chapter) :
    parseEnt chapter (f, cont) = none := by
  simp only [parseEnt, hq]
  rw [if_neg hc]

theorem parseEnt_some {chapter : Nat} {p : String × String} {e : Entry}
    (h : parseEnt chapter p = some e) :
    parseFileName p.1 = some (chapter, e.sectionNo, e.subsection, e.name) ∧
    e.file = p.1 ∧ e.chapter = chapter := by
  obtain ⟨f, cont⟩ := p
  cases hq : parseFileName f
  · rw [parseEnt_none hq] at h
    exact Option.noConfusion h
  · rename_i q
    obtain ⟨q1, q2, q3, q4⟩ := q
    by_cases hc : (q1, q2, q3, q4).1 = chapter
    · rw [parseEnt_match hq hc] at h
      injection h with h1
      subst h1
      simp only at hc
      subst hc
      exact ⟨rfl, rfl, rfl⟩
    · rw [parseEnt_mismatch hq hc] at h
      exact Option.noConfusion h

theorem collect_mem_chapter {chapter : Nat} {l : List (String × String)} {e : Entry}
    (h : e ∈ l.filterMap (parseEnt chapter)) : e.chapter = chapter := by
  rw [List.mem_filterMap] at h
  obtain ⟨p, _, hp⟩ := h
  exact (parseEnt_some hp).2.2

/-! ### Emission lemmas -/

theorem emitEntry_skip {listing : List (String × String)} {prev : Option Nat}
    {e : Entry} (h : e.sectionNo < 1) : emitEntry listing prev e = ([], prev) := by
  unfold emitEntry; rw [if_pos h]

theorem emitEntry_out {listing : List (String × String)} {prev : Option Nat}
    {e : Entry} (h : ¬ e.sectionNo < 1) :
    emitEntry listing prev e =
      ((if some e.sectionNo ≠ prev then
          [.sectionHeader e.chapter e.sectionNo (sectionName e.chapter e.sectionNo),
           .setCounterSection e.sectionNo] ++
            (if truthy e.subsection then [.setCounterSubsection] else [])
        else []) ++
       (if truthy e.subsection then
          [.subsectionHeader e.sectionNo e.subsection (replaceChar e.name '_' ' ')]
        else []) ++
       [.beginLst, .content e.sectionNo (readFile listing e.file), .endLst],
       some e.sectionNo) := by
  unfold emitEntry
  rw [if_neg h]

theorem emitAll_cons (listing : List (String × String)) (prev : Option Nat)
    (e : Entry) (es : List Entry) :
    emitAll listing prev (e :: es) =
      (emitEntry listing prev e).1 ++ emitAll listing (emitEntry listing prev e).2 es :=
  rfl

theorem extractBlocks_block (s : Nat) (t : String) (r : List Item) :
    extractBlocks (.beginLst :: .content s t :: .endLst :: r) = t :: extractBlocks r :=
  rfl

theorem extractBlocks_chapterLine (nm : String) (r : List Item) :
    extractBlocks (.chapterLine nm :: r) = extractBlocks r := rfl

theorem extractBlocks_section (c s : Nat) (t : String) (r : List Item) :
    extractBlocks (.sectionHeader c s t :: r) = extractBlocks r := rfl

theorem extractBlocks_setsec (s : Nat) (r : List Item) :
    extractBlocks (.setCounterSection s :: r) = extractBlocks r := rfl

theorem extractBlocks_setsub (r : List Item) :
    extractBlocks (.setCounterSubsection :: r) = extractBlocks r := rfl

theorem extractBlocks_subhdr (s : Nat) (sub : Option Nat) (t : String)
    (r : List Item) :
    extractBlocks (.subsectionHeader s sub t :: r) = extractBlocks r := rfl

theorem extractBlocks_emitAll (listing : List (String × String)) :
    ∀ (l : List Entry) (prev : Option Nat),
    extractBlocks (emitAll listing prev l) =
      (l.filter fun e => decide (1 ≤ e.sectionNo)).map
        fun e => readFile listing e.file := by
  intro l
  induction l with
  | nil => intro prev; rfl
  | cons e es ih =>
    intro prev
    rw [emitAll_cons]
    by_cases hskip : e.sectionNo < 1
    · rw [emitEntry_skip hskip]
      rw [List.nil_append]
      rw [ih]
      have : (e :: es).filter (fun e => decide (1 ≤ e.sectionNo)) =
          es.filter (fun e => decide (1 ≤ e.sectionNo)) := by
        rw [List.filter_cons_of_neg]
        simp only [decide_eq_true_eq]
        omega
      rw [this]
    · rw [emitEntry_out hskip]
      have hfil : (e :: es).filter (fun e => decide (1 ≤ e.sectionNo)) =
          e :: es.filter (fun e => decide (1 ≤ e.sectionNo)) := by
        rw [List.filter_cons_of_pos]
        simp only [decide_eq_true_eq]
        omega
      rw [hfil, List.map_cons]
      simp only []
      split_ifs <;>
        simp only [List.append_assoc, List.cons_append, List.nil_append,
          extractBlocks_section, extractBlocks_setsec, extractBlocks_setsub,
          extractBlocks_subhdr, extractBlocks_block] <;>
        rw [ih]

theorem filter_cons_true {α : Type} (p : α → Bool) (a : α) (l : List α)
    (h : p a = true) : (a :: l).filter p = a :: l.filter p := by
  simp [List.filter_cons, h]

theorem filter_cons_false {α : Type} (p : α → Bool) (a : α) (l : List α)
    (h : p a = false) : (a :: l).filter p = l.filter p := by
  simp [List.filter_cons, h]

theorem subHeaders_chapterLine (nm : String) (r : List Item) :
    subHeaders (.chapterLine nm :: r) = subHeaders r := rfl

theorem subHeaders_section (c s : Nat) (t : String) (r : List Item) :
    subHeaders (.sectionHeader c s t :: r) = subHeaders r := rfl

theorem subHeaders_setsec (s : Nat) (r : List Item) :
    subHeaders (.setCounterSection s :: r) = subHeaders r := rfl

theorem subHeaders_setsub (r : List Item) :
    subHeaders (.setCounterSubsection :: r) = subHeaders r := rfl

theorem subHeaders_subhdr (s : Nat) (sub : Option Nat) (t : String) (r : List Item) :
    subHeaders (.subsectionHeader s sub t :: r) = (s, sub, t) :: subHeaders r := rfl

theorem subHeaders_beginLst (r : List Item) :
    subHeaders (.beginLst :: r) = subHeaders r := rfl

theorem subHeaders_content (sec : Nat) (t : String) (r : List Item) :
    subHeaders (.content sec t :: r) = subHeaders r := rfl

theorem subHeaders_endLst (r : List Item) :
    subHeaders (.endLst :: r) = subHeaders r := rfl

theorem headerSecs_chapterLine (nm : String) (r : List Item) :
    headerSecs (.chapterLine nm :: r) = headerSecs r := rfl

theorem headerSecs_section (c s : Nat) (t : String) (r : List Item) :
    headerSecs (.sectionHeader c s t :: r) = s :: headerSecs r := rfl

theorem headerSecs_setsec (s : Nat) (r : List Item) :
    headerSecs (.setCounterSection s :: r) = headerSecs r := rfl

theorem headerSecs_setsub (r : List Item) :
    headerSecs (.setCounterSubsection :: r) = headerSecs r := rfl

theorem headerSecs_subhdr (s : Nat) (sub : Option Nat) (t : String) (r : List Item) :
    headerSecs (.subsectionHeader s sub t :: r) = headerSecs r := rfl

theorem headerSecs_beginLst (r : List Item) :
    headerSecs (.beginLst :: r) = headerSecs r := rfl

theorem headerSecs_content (sec : Nat) (t : String) (r : List Item) :
    headerSecs (.content sec t :: r) = headerSecs r := rfl

theorem headerSecs_endLst (r : List Item) :
    headerSecs (.endLst :: r) = headerSecs r := rfl

theorem subHeaders_emitAll (listing : List (String × String)) :
    ∀ (l : List Entry) (prev : Option Nat),
    subHeaders (emitAll listing prev l) =
      (l.filter fun e => decide (1 ≤ e.sectionNo) && truthy e.subsection).map
        fun e => (e.sectionNo, e.subsection, replaceChar e.name '_' ' ') := by
  intro l
  induction l with
  | nil => intro prev; rfl
  | cons e es ih =>
    intro prev
    rw [emitAll_cons]
    by_cases hskip : e.sectionNo < 1
    · rw [emitEntry_skip hskip, List.nil_append, ih,
        filter_cons_false _ _ _ (by
          rw [decide_eq_false (by omega : ¬ (1 ≤ e.sectionNo))]
          rfl)]
    · have hsec1 : decide (1 ≤ e.sectionNo) = true := by
        simp only [decide_eq_true_eq]; omega
      rw [emitEntry_out hskip]
      by_cases htru : truthy e.subsection
      · rw [if_pos htru, if_pos htru,
          filter_cons_true _ _ _ (by rw [hsec1, htru]; rfl), List.map_cons]
        by_cases htr : some e.sectionNo ≠ prev
        · rw [if_pos htr]
          simp only [List.cons_append, List.nil_append, List.append_assoc]
          rw [subHeaders_section, subHeaders_setsec, subHeaders_setsub,
            subHeaders_subhdr, subHeaders_beginLst, subHeaders_content,
            subHeaders_endLst, ih]
        · rw [if_neg htr]
          simp only [List.cons_append, List.nil_append, List.append_assoc]
          rw [subHeaders_subhdr, subHeaders_beginLst, subHeaders_content,
            subHeaders_endLst, ih]
      · have htru' : truthy e.subsection = false := by
          cases hx : truthy e.subsection
          · rfl
          · exact absurd hx htru
        rw [if_neg htru, if_neg htru,
          filter_cons_false _ _ _ (by rw [hsec1, htru']; rfl)]
        by_cases htr : some e.sectionNo ≠ prev
        · rw [if_pos htr]
          simp only [List.cons_append, List.nil_append, List.append_assoc]
          rw [subHeaders_section, subHeaders_setsec, subHeaders_beginLst,
            subHeaders_content, subHeaders_endLst, ih]
        · rw [if_neg htr]
          simp only [List.cons_append, List.nil_append, List.append_assoc]
          rw [subHeaders_beginLst, subHeaders_content, subHeaders_endLst, ih]

theorem mem_emitEntry_out {listing : List (String × String)} {prev : Option Nat}
    {e : Entry} {it : Item} (h : ¬ e.sectionNo < 1)
    (hm : it ∈ (emitEntry listing prev e).1) :
    it = .sectionHeader e.chapter e.sectionNo (sectionName e.chapter e.sectionNo) ∨
    it = .setCounterSection e.sectionNo ∨
    it = .setCounterSubsection ∨
    it = .subsectionHeader e.sectionNo e.subsection (replaceChar e.name '_' ' ') ∨
    it = .beginLst ∨
    it = .content e.sectionNo (readFile listing e.file) ∨
    it = .endLst := by
  rw [emitEntry_out h] at hm
  split_ifs at hm <;>
    simp only [List.mem_append, List.mem_cons, List.not_mem_nil, or_false,
      false_or] at hm <;>
    tauto

theorem content_mem_emitAll (listing : List (String × String)) :
    ∀ (l : List Entry) (prev : Option Nat) (sec : Nat) (t : String),
    Item.content sec t ∈ emitAll listing prev l →
    1 ≤ sec ∧ ∃ e ∈ l, sec = e.sectionNo ∧ t = readFile listing e.file := by
  intro l
  induction l with
  | nil => intro prev sec t h; exact absurd h (List.not_mem_nil _)
  | cons e es ih =>
    intro prev sec t h
    rw [emitAll_cons] at h
    rcases List.mem_append.mp h with h1 | h1
    · by_cases hskip : e.sectionNo < 1
      · rw [emitEntry_skip hskip] at h1
        exact absurd h1 (List.not_mem_nil _)
      · rcases mem_emitEntry_out hskip h1 with h2 | h2 | h2 | h2 | h2 | h2 | h2
        · exact absurd h2 (by simp)
        · exact absurd h2 (by simp)
        · exact absurd h2 (by simp)
        · exact absurd h2 (by simp)
        · exact absurd h2 (by simp)
        · injection h2 with h3 h4
          subst h3
          subst h4
          exact ⟨by omega, e, List.mem_cons_self e es, rfl, rfl⟩
        · exact absurd h2 (by simp)
    · obtain ⟨hsec, e', he', hrest⟩ := ih _ _ _ h1
      exact ⟨hsec, e', List.mem_cons_of_mem e he', hrest⟩

theorem header_mem_emitAll (listing : List (String × String)) :
    ∀ (l : List Entry) (prev : Option Nat) (c s : Nat) (t : String),
    Item.sectionHeader c s t ∈ emitAll listing prev l →
    t = sectionName c s ∧ 1 ≤ s ∧ ∃ e ∈ l, e.chapter = c ∧ e.sectionNo = s := by
  intro l
  induction l with
  | nil => intro prev c s t h; exact absurd h (List.not_mem_nil _)
  | cons e es ih =>
    intro prev c s t h
    rw [emitAll_cons] at h
    rcases List.mem_append.mp h with h1 | h1
    · by_cases hskip : e.sectionNo < 1
      · rw [emitEntry_skip hskip] at h1
        exact absurd h1 (List.not_mem_nil _)
      · rcases mem_emitEntry_out hskip h1 with h2 | h2 | h2 | h2 | h2 | h2 | h2
        · injection h2 with h3 h4 h5
          subst h3
          subst h4
          subst h5
          exact ⟨rfl, by omega, e, List.mem_cons_self e es, rfl, rfl⟩
        · exact absurd h2 (by simp)
        · exact absurd h2 (by simp)
        · exact absurd h2 (by simp)
        · exact absurd h2 (by simp)
        · exact absurd h2 (by simp)
        · exact absurd h2 (by simp)
    · obtain ⟨ht, hs1, e', he', hrest⟩ := ih _ _ _ _ h1
      exact ⟨ht, hs1, e', List.mem_cons_of_mem e he', hrest⟩

theorem headers_spec (listing : List (String × String)) :
    ∀ (l : List Entry) (prev : Option Nat),
    List.Pairwise (fun a b : Entry => a.sectionNo ≤ b.sectionNo) l →
    (∀ p, prev = some p → ∀ e ∈ l, p ≤ e.sectionNo) →
    List.Chain' (· ≤ ·) (headerSecs (emitAll listing prev l)) ∧
    ∀ s ∈ headerSecs (emitAll listing prev l),
      1 ≤ s ∧ ∀ p, prev = some p → p ≤ s := by
  intro l
  induction l with
  | nil =>
    intro prev _ _
    exact ⟨List.chain'_nil, fun s hs => absurd hs (List.not_mem_nil s)⟩
  | cons e es ih =>
    intro prev hpw hbnd
    have hpwt := hpw.of_cons
    have hhd : ∀ y ∈ es, e.sectionNo ≤ y.sectionNo := (List.pairwise_cons.mp hpw).1
    rw [emitAll_cons]
    by_cases hskip : e.sectionNo < 1
    · rw [emitEntry_skip hskip, List.nil_append]
      exact ih prev hpwt fun p hp e' he' => hbnd p hp e' (List.mem_cons_of_mem _ he')
    · rw [emitEntry_out hskip]
      have hbnd' : ∀ p, some e.sectionNo = some p → ∀ e' ∈ es, p ≤ e'.sectionNo := by
        intro p hp e' he'
        injection hp with hp1
        subst hp1
        exact hhd e' he'
      obtain ⟨ihc, ihm⟩ := ih (some e.sectionNo) hpwt hbnd'
      by_cases htr : some e.sectionNo ≠ prev
      · rw [if_pos htr]
        by_cases htru : truthy e.subsection
        · rw [if_pos htru, if_pos htru]
          simp only [List.cons_append, List.nil_append, List.append_assoc]
          rw [headerSecs_section, headerSecs_setsec, headerSecs_setsub,
            headerSecs_subhdr, headerSecs_beginLst, headerSecs_content,
            headerSecs_endLst]
          constructor
          · rw [List.chain'_cons']
            exact ⟨fun y hy =>
              (ihm y (List.mem_of_mem_head? hy)).2 e.sectionNo rfl, ihc⟩
          · intro s hs
            rcases List.mem_cons.mp hs with rfl | hs'
            · exact ⟨by omega, fun p hp => hbnd p hp e (List.mem_cons_self e es)⟩
            · obtain ⟨h1s, h2s⟩ := ihm s hs'
              exact ⟨h1s, fun p hp =>
                le_trans (hbnd p hp e (List.mem_cons_self e es)) (h2s e.sectionNo rfl)⟩
        · rw [if_neg htru, if_neg htru]
          simp only [List.cons_append, List.nil_append, List.append_assoc]
          rw [headerSecs_section, headerSecs_setsec, headerSecs_beginLst,
            headerSecs_content, headerSecs_endLst]
          constructor
          · rw [List.chain'_cons']
            exact ⟨fun y hy =>
              (ihm y (List.mem_of_mem_head? hy)).2 e.sectionNo rfl, ihc⟩
          · intro s hs
            rcases List.mem_cons.mp hs with rfl | hs'
            · exact ⟨by omega, fun p hp => hbnd p hp e (List.mem_cons_self e es)⟩
            · obtain ⟨h1s, h2s⟩ := ihm s hs'
              exact ⟨h1s, fun p hp =>
                le_trans (hbnd p hp e (List.mem_cons_self e es)) (h2s e.sectionNo rfl)⟩
      · rw [if_neg htr]
        have htr' : some e.sectionNo = prev := not_not.mp htr
        by_cases htru : truthy e.subsection
        · rw [if_pos htru]
          simp only [List.cons_append, List.nil_append, List.append_assoc]
          rw [headerSecs_subhdr, headerSecs_beginLst, headerSecs_content,
            headerSecs_endLst]
          refine ⟨ihc, ?_⟩
          intro s hs
          obtain ⟨h1s, h2s⟩ := ihm s hs
          refine ⟨h1s, ?_⟩
          intro p hp
          have hep : e.sectionNo = p := by
            injection htr'.trans hp
          rw [← hep]
          exact h2s e.sectionNo rfl
        · rw [if_neg htru]
          simp only [List.cons_append, List.nil_append, List.append_assoc]
          rw [headerSecs_beginLst, headerSecs_content, headerSecs_endLst]
          refine ⟨ihc, ?_⟩
          intro s hs
          obtain ⟨h1s, h2s⟩ := ihm s hs
          refine ⟨h1s, ?_⟩
          intro p hp
          have hep : e.sectionNo = p := by
            injection htr'.trans hp
          rw [← hep]
          exact h2s e.sectionNo rfl

/-! ### Dissecting `genChapter` -/

theorem genChapter_err {c : Nat} {nm : String} {listing : List (String × String)}
    {e' : String} (hc : collectEntries c listing = .error e') :
    genChapter c nm listing = ([.chapterLine nm], .error e') := by
  simp only [genChapter, hc]

theorem genChapter_sort_err {c : Nat} {nm : String}
    {listing : List (String × String)} {es : List Entry} {e' : String}
    (hc : collectEntries c listing = .ok es) (hs : sortE es = .error e') :
    genChapter c nm listing = ([.chapterLine nm], .error e') := by
  simp only [genChapter, hc, hs]

theorem genChapter_ok {c : Nat} {nm : String} {listing : List (String × String)}
    {es r : List Entry} (hc : collectEntries c listing = .ok es)
    (hs : sortE es = .ok r) :
    genChapter c nm listing = (.chapterLine nm :: emitAll listing none r, .ok ()) := by
  simp only [genChapter, hc, hs]

theorem genChapter_ok_inv {c : Nat} {nm : String} {listing : List (String × String)}
    (h : (genChapter c nm listing).2 = .ok ()) :
    ∃ es r, collectEntries c listing = .ok es ∧ sortE es = .ok r := by
  cases hc : collectEntries c listing with
  | error e =>
    rw [genChapter_err hc] at h
    exact Except.noConfusion h
  | ok es =>
    cases hs : sortE es with
    | error e =>
      rw [genChapter_sort_err hc hs] at h
      exact Except.noConfusion h
    | ok r => exact ⟨es, r, rfl, hs⟩

theorem keptSorted_eq {c : Nat} {listing : List (String × String)}
    {es r : List Entry} (hc : collectEntries c listing = .ok es)
    (hs : sortE es = .ok r) :
    keptSorted c listing = r.filter fun e => decide (1 ≤ e.sectionNo) := by
  simp only [keptSorted, hc, hs]

theorem collect_ok_no_mismatch {c : Nat} {listing : List (String × String)}
    {es : List Entry} (hc : collectEntries c listing = .ok es) :
    hasMismatch c listing = false ∧ es = listing.filterMap (parseEnt c) := by
  cases hmm : hasMismatch c listing
  · refine ⟨rfl, ?_⟩
    rw [collect_ok hmm] at hc
    injection hc with h
    exact h.symm
  · rw [collect_error hmm] at hc
    exact Except.noConfusion hc

theorem sorted_chapter {c : Nat} {listing : List (String × String)}
    {es r : List Entry} (hc : collectEntries c listing = .ok es)
    (hs : sortE es = .ok r) : ∀ e ∈ r, e.chapter = c := by
  intro e he
  have hperm := (sortE_ok_spec hs).1
  have hmem : e ∈ es := hperm.subset he
  rw [(collect_ok_no_mismatch hc).2] at hmem
  exact collect_mem_chapter hmem

theorem sorted_secs {c : Nat} {listing : List (String × String)}
    {es r : List Entry} (hc : collectEntries c listing = .ok es)
    (hs : sortE es = .ok r) :
    List.Pairwise (fun a b : Entry => a.sectionNo ≤ b.sectionNo) r := by
  have hpw := (sortE_ok_spec hs).2.1
  have hch := sorted_chapter hc hs
  refine hpw.imp_of_mem ?_
  intro a b ha hb hab
  exact leT_sec hab (by rw [hch a ha, hch b hb])

/-- Positional structure of a section transition: the header is always
followed by the section-counter set, and then either the subsection reset
(when the section-opening entry has a truthy subsection) or directly the
begin marker of the verbatim block. -/
theorem header_succ_emitAll (listing : List (String × String)) :
    ∀ (l : List Entry) (prev : Option Nat) (i : Nat) (c s : Nat) (t : String),
    (emitAll listing prev l)[i]? = some (.sectionHeader c s t) →
    (emitAll listing prev l)[i + 1]? = some (.setCounterSection s) ∧
    ((emitAll listing prev l)[i + 2]? = some .setCounterSubsection ∨
     (emitAll listing prev l)[i + 2]? = some .beginLst) := by
  intro l
  induction l with
  | nil =>
    intro prev i c s t h
    rw [show emitAll listing prev [] = [] from rfl, List.getElem?_nil] at h
    exact Option.noConfusion h
  | cons e es ih =>
    intro prev i c s t h
    rw [emitAll_cons] at h ⊢
    by_cases hskip : e.sectionNo < 1
    · rw [emitEntry_skip hskip, List.nil_append] at h ⊢
      exact ih prev i c s t h
    · rw [emitEntry_out hskip] at h ⊢
      by_cases htr : some e.sectionNo ≠ prev
      · rw [if_pos htr] at h ⊢
        by_cases htru : truthy e.subsection
        · rw [if_pos htru, if_pos htru] at h ⊢
          simp only [List.cons_append, List.nil_append, List.append_assoc] at h ⊢
          rcases i with _|_|_|_|_|_|_|i
          · rw [List.getElem?_cons_zero, Option.some.injEq] at h
            injection h with h1 h2 h3
            subst h2
            exact ⟨rfl, Or.inl rfl⟩
          · simp at h
          · simp at h
          · simp at h
          · simp at h
          · simp at h
          · simp at h
          · simp only [List.getElem?_cons_succ] at h ⊢
            exact ih (some e.sectionNo) i c s t h
        · rw [if_neg htru, if_neg htru] at h ⊢
          simp only [List.cons_append, List.nil_append, List.append_assoc] at h ⊢
          rcases i with _|_|_|_|_|i
          · rw [List.getElem?_cons_zero, Option.some.injEq] at h
            injection h with h1 h2 h3
            subst h2
            exact ⟨rfl, Or.inr rfl⟩
          · simp at h
          · simp at h
          · simp at h
          · simp at h
          · simp only [List.getElem?_cons_succ] at h ⊢
            exact ih (some e.sectionNo) i c s t h
      · rw [if_neg htr] at h ⊢
        by_cases htru : truthy e.subsection
        · rw [if_pos htru] at h ⊢
          simp only [List.cons_append, List.nil_append, List.append_assoc] at h ⊢
          rcases i with _|_|_|_|i
          · simp at h
          · simp at h
          · simp at h
          · simp at h
          · simp only [List.getElem?_cons_succ] at h ⊢
            exact ih (some e.sectionNo) i c s t h
        · rw [if_neg htru] at h ⊢
          simp only [List.cons_append, List.nil_append, List.append_assoc] at h ⊢
          rcases i with _|_|_|i
          · simp at h
          · simp at h
          · simp at h
          · simp only [List.getElem?_cons_succ] at h ⊢
            exact ih (some e.sectionNo) i c s t h

/-! ### Lookup lemmas for the title table -/

theorem lookup_mem_unique : ∀ {l : List ((Nat × Nat) × String)} {k : Nat × Nat}
    {v : String}, (l.map Prod.fst).Nodup → (k, v) ∈ l →
    List.lookup k l = some v := by
  intro l
  induction l with
  | nil => intro k v _ h; exact absurd h (List.not_mem_nil _)
  | cons p t ih =>
    intro k v hnd hm
    obtain ⟨pk, pv⟩ := p
    rw [List.map_cons, List.nodup_cons] at hnd
    by_cases hk : k = pk
    · subst hk
      rcases List.mem_cons.mp hm with h1 | h1
      · rw [Prod.mk.injEq] at h1
        obtain ⟨_, h1b⟩ := h1
        subst h1b
        simp [List.lookup]
      · exact absurd (List.mem_map_of_mem Prod.fst h1) hnd.1
    · rw [show List.lookup k ((pk, pv) :: t) = List.lookup k t from by
        simp [List.lookup, beq_eq_false_iff_ne.mpr hk]]
      rcases List.mem_cons.mp hm with h1 | h1
      · exfalso
        rw [Prod.mk.injEq] at h1
        exact hk h1.1
      · exact ih hnd.2 h1

theorem lookup_not_mem : ∀ {l : List ((Nat × Nat) × String)} {k : Nat × Nat},
    (∀ v, (k, v) ∉ l) → List.lookup k l = none := by
  intro l
  induction l with
  | nil => intro k _; rfl
  | cons p t ih =>
    intro k h
    obtain ⟨pk, pv⟩ := p
    by_cases hk : k = pk
    · subst hk
      exact absurd (List.mem_cons_self _ _) (h pv)
    · rw [show List.lookup k ((pk, pv) :: t) = List.lookup k t from by
        simp [List.lookup, beq_eq_false_iff_ne.mpr hk]]
      exact ih fun v hv => h v (List.mem_cons_of_mem _ hv)

theorem sectionNames_keys_nodup : (SECTION_NAMES.map Prod.fst).Nodup := by
  decide

/-! ### Per-file counting and lookup -/

theorem mem_filterMap_file {chapter : Nat} {listing : List (String × String)}
    {e : Entry} (h : e ∈ listing.filterMap (parseEnt chapter)) :
    e.file ∈ listing.map Prod.fst := by
  rw [List.mem_filterMap] at h
  obtain ⟨p, hp, hpe⟩ := h
  rw [(parseEnt_some hpe).2.1]
  exact List.mem_map_of_mem _ hp

theorem countP_entries_eq_one : ∀ {listing : List (String × String)}
    {chapter : Nat} {f cont : String} {e0 : Entry},
    (listing.map Prod.fst).Nodup → (f, cont) ∈ listing →
    parseEnt chapter (f, cont) = some e0 → 1 ≤ e0.sectionNo →
    (listing.filterMap (parseEnt chapter)).countP
      (fun e => e.file == f && decide (1 ≤ e.sectionNo)) = 1 := by
  intro listing
  induction listing with
  | nil => intro chapter f cont e0 _ hmem _ _; exact absurd hmem (List.not_mem_nil _)
  | cons p t ih =>
    intro chapter f cont e0 hnd hmem hp hkept
    obtain ⟨g, d⟩ := p
    rw [List.map_cons, List.nodup_cons] at hnd
    rcases List.mem_cons.mp hmem with hhead | htail
    · rw [Prod.mk.injEq] at hhead
      obtain ⟨hf, hcont⟩ := hhead
      subst hf
      subst hcont
      rw [List.filterMap_cons, hp]
      rw [List.countP_cons_of_pos]
      · have hz : (t.filterMap (parseEnt chapter)).countP
            (fun e => e.file == f && decide (1 ≤ e.sectionNo)) = 0 := by
          rw [List.countP_eq_zero]
          intro e he
          have hfile := mem_filterMap_file he
          intro hpred
          rw [Bool.and_eq_true, beq_iff_eq] at hpred
          rw [hpred.1] at hfile
          exact hnd.1 hfile
        rw [hz]
      · have hfe : e0.file = f := (parseEnt_some hp).2.1
        rw [Bool.and_eq_true, beq_iff_eq]
        exact ⟨hfe, by rw [decide_eq_true_eq]; exact hkept⟩
    · have hgf : g ≠ f := by
        intro hx
        subst hx
        have hmm2 := List.mem_map_of_mem Prod.fst htail
        exact hnd.1 hmm2
      rw [List.filterMap_cons]
      cases hq : parseEnt chapter (g, d) with
      | none => exact ih hnd.2 htail hp hkept
      | some e' =>
        rw [List.countP_cons_of_neg]
        · exact ih hnd.2 htail hp hkept
        · have hfe : e'.file = g := (parseEnt_some hq).2.1
          rw [Bool.and_eq_true, beq_iff_eq]
          intro hpred
          exact hgf (hfe.symm.trans hpred.1)

theorem readFile_mem : ∀ {listing : List (String × String)} {f cont : String},
    (listing.map Prod.fst).Nodup → (f, cont) ∈ listing →
    readFile listing f = cont := by
  intro listing
  induction listing with
  | nil => intro f cont _ hmem; exact absurd hmem (List.not_mem_nil _)
  | cons p t ih =>
    intro f cont hnd hmem
    obtain ⟨g, d⟩ := p
    rw [List.map_cons, List.nodup_cons] at hnd
    rcases List.mem_cons.mp hmem with hhead | htail
    · rw [Prod.mk.injEq] at hhead
      obtain ⟨hf, hcont⟩ := hhead
      subst hf
      subst hcont
      unfold readFile
      rw [List.find?_cons_of_pos]
      · rfl
      · exact beq_self_eq_true f
    · have hgf : g ≠ f := by
        intro hx
        subst hx
        have hmm2 := List.mem_map_of_mem Prod.fst htail
        exact hnd.1 hmm2
      unfold readFile
      rw [List.find?_cons_of_neg]
      · exact ih hnd.2 htail
      · rw [Bool.not_eq_true, beq_eq_false_iff_ne]
        exact hgf

/-! ### Enumeration-order invariance machinery -/

theorem find?_perm_nodup {β : Type} {l1 l2 : List (String × β)} (hp : l1.Perm l2)
    (hnd : (l1.map Prod.fst).Nodup) (f : String) :
    l1.find? (fun p => p.1 == f) = l2.find? (fun p => p.1 == f) := by
  by_cases hex : ∃ x ∈ l1, x.1 = f
  · obtain ⟨x, hx, hxf⟩ := hex
    have e1 : ∃ y, l1.find? (fun p => p.1 == f) = some y := by
      rw [← Option.isSome_iff_exists, List.find?_isSome]
      exact ⟨x, hx, by rw [hxf]; exact beq_self_eq_true f⟩
    have e2 : ∃ y, l2.find? (fun p => p.1 == f) = some y := by
      rw [← Option.isSome_iff_exists, List.find?_isSome]
      exact ⟨x, hp.subset hx, by rw [hxf]; exact beq_self_eq_true f⟩
    obtain ⟨y1, hy1⟩ := e1
    obtain ⟨y2, hy2⟩ := e2
    have m1 : y1 ∈ l1 := List.mem_of_find?_eq_some hy1
    have m2 : y2 ∈ l1 := hp.symm.subset (List.mem_of_find?_eq_some hy2)
    have p1 : y1.1 = f := by
      have := List.find?_some hy1
      exact eq_of_beq this
    have p2 : y2.1 = f := by
      have := List.find?_some hy2
      exact eq_of_beq this
    have hkey : y1.1 = y2.1 := by rw [p1, p2]
    have : y1 = y2 := List.inj_on_of_nodup_map hnd m1 m2 hkey
    rw [hy1, hy2, this]
  · push_neg at hex
    rw [List.find?_eq_none.mpr, List.find?_eq_none.mpr]
    · intro x hx
      rw [Bool.not_eq_true, beq_eq_false_iff_ne]
      exact hex x (hp.symm.subset hx)
    · intro x hx
      rw [Bool.not_eq_true, beq_eq_false_iff_ne]
      exact hex x hx

theorem lastWrite_perm {ws1 ws2 : List (String × String)} (hp : ws1.Perm ws2)
    (hnd : (ws1.map Prod.fst).Nodup) (f : String) :
    lastWrite ws1 f = lastWrite ws2 f := by
  unfold lastWrite
  have hrev : ws1.reverse.Perm ws2.reverse :=
    (ws1.reverse_perm.trans hp).trans ws2.reverse_perm.symm
  have hndr : (ws1.reverse.map Prod.fst).Nodup := by
    rw [List.map_reverse, List.nodup_reverse]
    exact hnd
  rw [find?_perm_nodup hrev hndr f]

theorem readFile_perm {l1 l2 : List (String × String)} (hp : l1.Perm l2)
    (hnd : (l1.map Prod.fst).Nodup) (f : String) :
    readFile l1 f = readFile l2 f := by
  unfold readFile
  rw [find?_perm_nodup hp hnd f]

theorem emitEntry_readFile_congr {l1 l2 : List (String × String)}
    (hrf : ∀ f, readFile l1 f = readFile l2 f) (prev : Option Nat) (e : Entry) :
    emitEntry l1 prev e = emitEntry l2 prev e := by
  by_cases hs : e.sectionNo < 1
  · rw [emitEntry_skip hs, emitEntry_skip hs]
  · rw [emitEntry_out hs, emitEntry_out hs, hrf e.file]

theorem emitAll_readFile_congr {l1 l2 : List (String × String)}
    (hrf : ∀ f, readFile l1 f = readFile l2 f) :
    ∀ (es : List Entry) (prev : Option Nat), emitAll l1 prev es = emitAll l2 prev es := by
  intro es
  induction es with
  | nil => intro prev; rfl
  | cons e t ih =>
    intro prev
    rw [emitAll_cons, emitAll_cons, emitEntry_readFile_congr hrf prev e, ih]

theorem hasMismatch_perm {c : Nat} {l1 l2 : List (String × String)}
    (hp : l1.Perm l2) : hasMismatch c l1 = hasMismatch c l2 := by
  unfold hasMismatch
  cases hx : l2.any fun p =>
      match parseFileName p.1 with
      | some q => q.1 != c
      | none => false
  · cases hy : l1.any fun p =>
        match parseFileName p.1 with
        | some q => q.1 != c
        | none => false
    · rfl
    · exfalso
      rw [List.any_eq_true] at hy
      obtain ⟨p, hpm, hpv⟩ := hy
      have h2 : (l2.any fun p =>
          match parseFileName p.1 with
          | some q => q.1 != c
          | none => false) = true := by
        rw [List.any_eq_true]
        exact ⟨p, hp.subset hpm, hpv⟩
      rw [hx] at h2
      exact Bool.noConfusion h2
  · rw [List.any_eq_true] at hx
    obtain ⟨p, hpm, hpv⟩ := hx
    rw [List.any_eq_true]
    exact ⟨p, hp.symm.subset hpm, hpv⟩

theorem genChapter_perm {c : Nat} {nm : String} {l1 l2 : List (String × String)}
    (hp : l1.Perm l2) (hnd : (l1.map Prod.fst).Nodup) :
    genChapter c nm l1 = genChapter c nm l2 := by
  have hrf : ∀ f, readFile l1 f = readFile l2 f := readFile_perm hp hnd
  have hmm : hasMismatch c l1 = hasMismatch c l2 := hasMismatch_perm hp
  cases hmc : hasMismatch c l1
  · have hmc2 : hasMismatch c l2 = false := by rw [← hmm]; exact hmc
    have hcol1 := collect_ok hmc
    have hcol2 := collect_ok hmc2
    have hentries : (l1.filterMap (parseEnt c)).Perm (l2.filterMap (parseEnt c)) :=
      hp.filterMap _
    have hsort := sortE_perm_congr hentries
    cases hs1 : sortE (l1.filterMap (parseEnt c)) with
    | error e =>
      have hs2 : sortE (l2.filterMap (parseEnt c)) = .error e := by
        rw [← hsort]; exact hs1
      rw [genChapter_sort_err hcol1 hs1, genChapter_sort_err hcol2 hs2]
    | ok r =>
      have hs2 : sortE (l2.filterMap (parseEnt c)) = .ok r := by
        rw [← hsort]; exact hs1
      rw [genChapter_ok hcol1 hs1, genChapter_ok hcol2 hs2,
        emitAll_readFile_congr hrf r none]
  · have hmc2 : hasMismatch c l2 = true := by rw [← hmm]; exact hmc
    rw [genChapter_err (collect_error hmc), genChapter_err (collect_error hmc2)]

theorem runMain_cons_none {d : String × List (String × String)}
    {t : List (String × List (String × String))} (h : parseDirName d.1 = none) :
    runMain (d :: t) = runMain t := by
  simp only [runMain, h]

theorem runMain_cons_err {d : String × List (String × String)}
    {t : List (String × List (String × String))} {p : Nat × String}
    {items : List Item} {e' : String} (h : parseDirName d.1 = some p)
    (hg : genChapter p.1 p.2 d.2 = (items, .error e')) :
    runMain (d :: t) = [(outFileName p.1, renderAll items)] := by
  simp only [runMain, h, hg]

theorem runMain_cons_ok {d : String × List (String × String)}
    {t : List (String × List (String × String))} {p : Nat × String}
    {items : List Item} (h : parseDirName d.1 = some p)
    (hg : genChapter p.1 p.2 d.2 = (items, .ok ())) :
    runMain (d :: t) = (outFileName p.1, renderAll items) :: runMain t := by
  simp only [runMain, h, hg]

theorem runMain_eq_of_forall₂ : ∀ {r1 r2 : List (String × List (String × String))},
    List.Forall₂ (fun a b => a.1 = b.1 ∧ a.2.Perm b.2) r1 r2 →
    (∀ d ∈ r1, (d.2.map Prod.fst).Nodup) →
    runMain r1 = runMain r2 := by
  intro r1 r2 hf
  induction hf with
  | nil => intro _; rfl
  | cons hab hrest ih =>
    intro hnd
    rename_i a b t1 t2
    obtain ⟨hname, hlist⟩ := hab
    have htails : runMain t1 = runMain t2 :=
      ih (fun d hd => hnd d (List.mem_cons_of_mem a hd))
    show runMain (a :: t1) = runMain (b :: t2)
    cases hpb : parseDirName b.1 with
    | none =>
      have hpa : parseDirName a.1 = none := by rw [hname, hpb]
      rw [runMain_cons_none hpa, runMain_cons_none hpb, htails]
    | some p =>
      have hpa : parseDirName a.1 = some p := by rw [hname, hpb]
      have hg : genChapter p.1 p.2 a.2 = genChapter p.1 p.2 b.2 :=
        genChapter_perm hlist (hnd a (List.mem_cons_self a t1))
      rcases hgb : genChapter p.1 p.2 b.2 with ⟨items, res⟩
      have hga : genChapter p.1 p.2 a.2 = (items, res) := by rw [hg, hgb]
      cases res with
      | error e' =>
        rw [runMain_cons_err hpa hga, runMain_cons_err hpb hgb]
      | ok u =>
        cases u
        rw [runMain_cons_ok hpa hga, runMain_cons_ok hpb hgb, htails]

theorem runMain_eq_filterMap : ∀ {r : List (String × List (String × String))},
    (∀ d ∈ r, ∀ p, parseDirName d.1 = some p →
      (genChapter p.1 p.2 d.2).2 = Except.ok ()) →
    runMain r = r.filterMap fun d => (parseDirName d.1).map fun p =>
      (outFileName p.1, renderAll (genChapter p.1 p.2 d.2).1) := by
  intro r
  induction r with
  | nil => intro _; rfl
  | cons d t ih =>
    intro hok
    rw [List.filterMap_cons]
    cases hpd : parseDirName d.1 with
    | none =>
      rw [runMain_cons_none hpd]
      simp only [Option.map_none']
      exact ih (fun d' hd' => hok d' (List.mem_cons_of_mem d hd'))
    | some p =>
      have h2 := hok d (List.mem_cons_self d t) p hpd
      rcases hgp : genChapter p.1 p.2 d.2 with ⟨items, res⟩
      rw [hgp] at h2
      simp only at h2
      subst h2
      rw [runMain_cons_ok hpd hgp]
      simp only [Option.map_some', hgp]
      rw [List.cons.injEq]
      exact ⟨rfl, ih (fun d' hd' => hok d' (List.mem_cons_of_mem d hd'))⟩

theorem writes_keys : ∀ (r : List (String × List (String × String))),
    ((r.filterMap fun d => (parseDirName d.1).map fun p =>
      (outFileName p.1, renderAll (genChapter p.1 p.2 d.2).1)).map Prod.fst) =
    (dirChapters r).map outFileName := by
  intro r
  induction r with
  | nil => rfl
  | cons d t ih =>
    unfold dirChapters
    rw [List.filterMap_cons, List.filterMap_cons]
    cases hpd : parseDirName d.1 with
    | none =>
      simp only [Option.map_none']
      exact ih
    | some p =>
      simp only [Option.map_some', List.map_cons]
      rw [List.cons.injEq]
      refine ⟨rfl, ?_⟩
      rw [ih]
      unfold dirChapters
      rfl

end GenContents

namespace GenContents

namespace Claims

open GenContents

/-- **C1.** For the chapter directory `1-intro/` containing `1.1_scan.cpp`
(contents `"int x;"`) and `1.2.1_probe_sort.cpp` (contents `"int y;"`),
generation of `chapter1.tex` succeeds and writes, in order: the title line
for `intro`, the section header `Array Transformations` followed by a
verbatim block containing `int x;`, then the section header `Array Queries`
with a subsection-counter reset and the subsection header `probe sort`
followed by a verbatim block containing `int y;` — stated as the exact item
sequence and the exact file text. -/
theorem claim_C1 :
    outFileName 1 = "chapter1.tex" ∧
    genChapter 1 "intro" [("1.1_scan.cpp", "int x;"), ("1.2.1_probe_sort.cpp", "int y;")] =
      ([.chapterLine "intro",
        .sectionHeader 1 1 "Array Transformations", .setCounterSection 1,
        .beginLst, .content 1 "int x;", .endLst,
        .sectionHeader 1 2 "Array Queries", .setCounterSection 2,
        .setCounterSubsection, .subsectionHeader 2 (some 1) "probe sort",
        .beginLst, .content 2 "int y;", .endLst], .ok ()) ∧
    renderAll (genChapter 1 "intro"
        [("1.1_scan.cpp", "int x;"), ("1.2.1_probe_sort.cpp", "int y;")]).1 =
      "\\chapter\x7bintro\x7d\n" ++
      "\n\\section\x7bArray Transformations\x7d\n" ++ "\\setcounter\x7bsection\x7d\x7b1\x7d\n" ++
      "\\begin\x7blstlisting\x7d\n" ++ "int x;" ++ "\\end\x7blstlisting\x7d\n" ++
      "\n\\section\x7bArray Queries\x7d\n" ++ "\\setcounter\x7bsection\x7d\x7b2\x7d\n" ++
      "\\setcounter\x7bsubsection\x7d\x7b0\x7d\n" ++
      "\\subsection\x7bprobe sort\x7d\n" ++
      "\\begin\x7blstlisting\x7d\n" ++ "int y;" ++ "\\end\x7blstlisting\x7d\n" := by
  refine ⟨rfl, ?_, ?_⟩ <;> rfl

/-- **C2.** Evaluation of the code at the failing input: the two files
`1.1_scan.cpp` and `1.1.1_probe.cpp` both match the naming pattern in the
same section, one with and one without a subsection number; `sorted` then
compares `None` with `1` and raises `TypeError`, so the run dies having
written only the chapter line — the claim's guarantee that sorting succeeds
on every such mixture fails on the code. -/
theorem claim_C2_code_bug_eval :
    parseFileName "1.1_scan.cpp" = some (1, 1, none, "scan") ∧
    parseFileName "1.1.1_probe.cpp" = some (1, 1, some 1, "probe") ∧
    genChapter 1 "intro" [("1.1_scan.cpp", "int x;"), ("1.1.1_probe.cpp", "int y;")] =
      ([.chapterLine "intro"], .error "TypeError") := by
  refine ⟨rfl, rfl, ?_⟩; rfl

/-- **C3 counterexample.** `1.0_foo.cpp` matches the naming pattern with
embedded chapter number 1, yet a successful run of chapter 1 emits no
verbatim block at all: the file's contents appear zero times, refuting the
claim as stated (which quantifies over every matching file). -/
theorem claim_C3_counterexample :
    parseFileName "1.0_foo.cpp" = some (1, 0, none, "foo") ∧
    (genChapter 1 "intro" [("1.0_foo.cpp", "int z;")]).2 = .ok () ∧
    extractBlocks (genChapter 1 "intro" [("1.0_foo.cpp", "int z;")]).1 = [] := by
  refine ⟨rfl, rfl, ?_⟩; rfl

/-- **C6 counterexample.** `1.1.0_foo.cpp` parses to an entry that carries
the subsection number 0, yet the successful run emits no subsection header
(`if subsection:` is false for 0), refuting the claim as stated. -/
theorem claim_C6_counterexample :
    collectEntries 1 [("1.1.0_foo.cpp", "q")] =
      .ok [⟨1, 1, some 0, "foo", "1.1.0_foo.cpp"⟩] ∧
    (genChapter 1 "x" [("1.1.0_foo.cpp", "q")]).2 = .ok () ∧
    subHeaders (genChapter 1 "x" [("1.1.0_foo.cpp", "q")]).1 = [] := by
  refine ⟨rfl, rfl, ?_⟩; rfl

/-- **C9 counterexample.** A successful run whose only entry has no
subsection number performs a section transition (a section header is
emitted) but never writes the subsection-counter reset, refuting the claim
that every section transition is accompanied by such a reset. -/
theorem claim_C9_counterexample :
    (genChapter 1 "intro" [("1.1_a.cpp", "x")]).2 = .ok () ∧
    headerSecs (genChapter 1 "intro" [("1.1_a.cpp", "x")]).1 = [1] ∧
    Item.setCounterSubsection ∉ (genChapter 1 "intro" [("1.1_a.cpp", "x")]).1 := by
  refine ⟨rfl, rfl, ?_⟩; decide

/-- **C8 counterexample.** The directories `1-aaa` and `01-bbb` both carry
the embedded chapter number 1, so both runs write `chapter1.tex` and the
last write wins: enumerating the root in the two opposite orders yields
different final bytes for `chapter1.tex`, refuting byte-identical output
regardless of filesystem enumeration order. -/
theorem claim_C8_counterexample :
    [("1-aaa", [("1.1_f.cpp", "A")]), ("01-bbb", [("1.1_g.cpp", "B")])].Perm
      [("01-bbb", [("1.1_g.cpp", "B")]), ("1-aaa", [("1.1_f.cpp", "A")])] ∧
    lastWrite (runMain
        [("1-aaa", [("1.1_f.cpp", "A")]), ("01-bbb", [("1.1_g.cpp", "B")])])
        "chapter1.tex" ≠
      lastWrite (runMain
        [("01-bbb", [("1.1_g.cpp", "B")]), ("1-aaa", [("1.1_f.cpp", "A")])])
        "chapter1.tex" := by
  constructor
  · exact List.Perm.swap _ _ _
  · decide

/-- **C4.** For every file in a chapter directory whose name matches
`FILE_RE` but whose embedded chapter number differs from the chapter number
of the run, generation dies with `AssertionError` and no output beyond the
chapter title line is produced — in particular nothing is written for the
mismatched entry. -/
theorem claim_C4 (c : Nat) (nm : String) (listing : List (String × String))
    (file cont : String) (q : Nat × Nat × Option Nat × String)
    (hmem : (file, cont) ∈ listing) (hq : parseFileName file = some q)
    (hne : q.1 ≠ c) :
    (genChapter c nm listing).2 = .error "AssertionError" ∧
    ∀ it ∈ (genChapter c nm listing).1, it = .chapterLine nm := by
  have hmm : hasMismatch c listing = true := by
    rw [hasMismatch, List.any_eq_true]
    refine ⟨(file, cont), hmem, ?_⟩
    simp only [hq, bne_iff_ne, ne_eq]
    exact hne
  rw [genChapter_err (collect_error hmm)]
  refine ⟨rfl, ?_⟩
  intro it hit
  rw [List.mem_singleton] at hit
  exact hit

theorem claim_C4_witness :
    parseFileName "2.1_foo.cpp" = some (2, 1, none, "foo") ∧
    (genChapter 3 "bar" [("2.1_foo.cpp", "z")]).2 = .error "AssertionError" := by
  have h := claim_C4 3 "bar" [("2.1_foo.cpp", "z")] "2.1_foo.cpp" "z"
    (2, 1, none, "foo") (List.mem_singleton_self _) rfl (by decide)
  exact ⟨rfl, h.1⟩

/-- **C10.** When the chapter-number consistency check fails, the output
file has at that point already been created — `open(..., 'w')` truncates
any previous file of that name — and its contents are exactly the chapter
title line: the failing run does not leave the output unchanged or
absent. -/
theorem claim_C10 (c : Nat) (nm : String) (listing : List (String × String))
    (file cont : String) (q : Nat × Nat × Option Nat × String)
    (hmem : (file, cont) ∈ listing) (hq : parseFileName file = some q)
    (hne : q.1 ≠ c) :
    (genChapter c nm listing).1 = [.chapterLine nm] ∧
    renderAll (genChapter c nm listing).1 =
      "\\chapter\x7b" ++ replaceChar nm '-' ' ' ++ "\x7d\n" ∧
    (genChapter c nm listing).2 = .error "AssertionError" := by
  have hmm : hasMismatch c listing = true := by
    rw [hasMismatch, List.any_eq_true]
    refine ⟨(file, cont), hmem, ?_⟩
    simp only [hq, bne_iff_ne, ne_eq]
    exact hne
  rw [genChapter_err (collect_error hmm)]
  exact ⟨rfl, rfl, rfl⟩

theorem claim_C10_witness :
    (genChapter 3 "bar-baz" [("2.1_foo.cpp", "z")]).1 = [.chapterLine "bar-baz"] ∧
    renderAll (genChapter 3 "bar-baz" [("2.1_foo.cpp", "z")]).1 =
      "\\chapter\x7bbar baz\x7d\n" := by
  have h := claim_C10 3 "bar-baz" [("2.1_foo.cpp", "z")] "2.1_foo.cpp" "z"
    (2, 1, none, "foo") (List.mem_singleton_self _) rfl (by decide)
  exact ⟨h.1, h.2.1.trans (by rfl)⟩

/-- **C5.** In every generated chapter document — for any input listing,
including runs that die early — the emitted section headers appear in
non-decreasing order of section number, every emitted section header has
section number at least 1, and every verbatim block belongs to an entry
of section number at least 1 (entries with section number 0 produce no
output at all). -/
theorem claim_C5 (c : Nat) (nm : String) (listing : List (String × String)) :
    List.Chain' (· ≤ ·) (headerSecs (genChapter c nm listing).1) ∧
    (∀ s ∈ headerSecs (genChapter c nm listing).1, 1 ≤ s) ∧
    ∀ sec t, Item.content sec t ∈ (genChapter c nm listing).1 → 1 ≤ sec := by
  cases hc : collectEntries c listing with
  | error e =>
    rw [genChapter_err hc]
    refine ⟨List.chain'_nil, ?_, ?_⟩
    · intro s hs
      exact absurd hs (List.not_mem_nil s)
    · intro sec t hmem
      rw [List.mem_singleton] at hmem
      exact Item.noConfusion hmem
  | ok es =>
    cases hsort : sortE es with
    | error e =>
      rw [genChapter_sort_err hc hsort]
      refine ⟨List.chain'_nil, ?_, ?_⟩
      · intro s hs
        exact absurd hs (List.not_mem_nil s)
      · intro sec t hmem
        rw [List.mem_singleton] at hmem
        exact Item.noConfusion hmem
    | ok r =>
      rw [genChapter_ok hc hsort]
      have hspec := headers_spec listing r none (sorted_secs hc hsort)
        (fun p hp => Option.noConfusion hp)
      refine ⟨?_, ?_, ?_⟩
      · rw [headerSecs_chapterLine]
        exact hspec.1
      · intro s hs'
        rw [headerSecs_chapterLine] at hs'
        exact (hspec.2 s hs').1
      · intro sec t hmem
        rcases List.mem_cons.mp hmem with h1 | h1
        · exact Item.noConfusion h1
        · exact (content_mem_emitAll listing r none sec t h1).1

/-- **C7.** Every emitted section header of chapter `c` and section `s`
carries exactly the title `SECTION_NAMES.get((c, s), "")`: when `(c, s)`
is a key of the static table the header text is the table's value, and
when it is absent the header text is the empty string. -/
theorem claim_C7 (cc : Nat) (nm : String) (listing : List (String × String))
    (c s : Nat) (t : String)
    (h : Item.sectionHeader c s t ∈ (genChapter cc nm listing).1) :
    t = sectionName c s ∧
    (∀ v, ((c, s), v) ∈ SECTION_NAMES → t = v) ∧
    ((∀ v, ((c, s), v) ∉ SECTION_NAMES) → t = "") := by
  have ht : t = sectionName c s := by
    cases hc : collectEntries cc listing with
    | error e =>
      rw [genChapter_err hc] at h
      rw [List.mem_singleton] at h
      exact Item.noConfusion h
    | ok es =>
      cases hsort : sortE es with
      | error e =>
        rw [genChapter_sort_err hc hsort] at h
        rw [List.mem_singleton] at h
        exact Item.noConfusion h
      | ok r =>
        rw [genChapter_ok hc hsort] at h
        rcases List.mem_cons.mp h with h1 | h1
        · exact Item.noConfusion h1
        · exact (header_mem_emitAll listing r none c s t h1).1
  refine ⟨ht, ?_, ?_⟩
  · intro v hv
    rw [ht]
    unfold sectionName
    rw [lookup_mem_unique sectionNames_keys_nodup hv]
    rfl
  · intro hnone
    rw [ht]
    unfold sectionName
    rw [lookup_not_mem hnone]
    rfl

theorem claim_C7_witness :
    Item.sectionHeader 1 1 "Array Transformations" ∈
      (genChapter 1 "intro" [("1.1_scan.cpp", "int x;")]).1 ∧
    "Array Transformations" = sectionName 1 1 := by
  have h := claim_C7 1 "intro" [("1.1_scan.cpp", "int x;")] 1 1
    "Array Transformations" (by decide)
  exact ⟨by decide, h.1⟩

/-- **C3 (amended).** On every run that completes successfully, the
verbatim blocks of `chapterN.tex` are exactly the contents of the matched
files with embedded section number at least 1, in sorted order; in
particular every listed file that matches the pattern with embedded chapter
`c` and section at least 1 owns exactly one entry of the processed list
(so its contents appear exactly once, inside one begin/end pair), and the
content written for it is the file's own contents.  Files with embedded
section number 0 are omitted entirely (see the counterexample). -/
theorem claim_C3_amended (c : Nat) (nm : String) (listing : List (String × String))
    (hok : (genChapter c nm listing).2 = .ok ())
    (hnd : (listing.map Prod.fst).Nodup) :
    extractBlocks (genChapter c nm listing).1 =
      (keptSorted c listing).map (fun e => readFile listing e.file) ∧
    ∀ f cont q, (f, cont) ∈ listing → parseFileName f = some q → q.1 = c →
      1 ≤ q.2.1 →
      ((keptSorted c listing).countP fun e => e.file == f) = 1 ∧
      readFile listing f = cont := by
  obtain ⟨es, r, hc, hsort⟩ := genChapter_ok_inv hok
  rw [genChapter_ok hc hsort, keptSorted_eq hc hsort]
  constructor
  · rw [extractBlocks_chapterLine]
    exact extractBlocks_emitAll listing r none
  · intro f cont q hmem hq hqc hqs
    have he0 : parseEnt c (f, cont) = some (entryOf f q) := parseEnt_match hq hqc
    refine ⟨?_, readFile_mem hnd hmem⟩
    have hperm : r.Perm es := (sortE_ok_spec hsort).1
    have hes : es = listing.filterMap (parseEnt c) := (collect_ok_no_mismatch hc).2
    have hfil : (r.filter fun e => decide (1 ≤ e.sectionNo)).Perm
        ((listing.filterMap (parseEnt c)).filter
          fun e => decide (1 ≤ e.sectionNo)) := by
      rw [← hes]
      exact hperm.filter _
    rw [hfil.countP_eq]
    rw [List.countP_filter]
    exact countP_entries_eq_one hnd hmem he0 hqs

theorem claim_C3_amended_witness :
    (genChapter 1 "intro" [("1.1_scan.cpp", "int x;")]).2 = .ok () ∧
    extractBlocks (genChapter 1 "intro" [("1.1_scan.cpp", "int x;")]).1 =
      (keptSorted 1 [("1.1_scan.cpp", "int x;")]).map
        (fun e => readFile [("1.1_scan.cpp", "int x;")] e.file) ∧
    ((keptSorted 1 [("1.1_scan.cpp", "int x;")]).countP
        fun e => e.file == "1.1_scan.cpp") = 1 ∧
    readFile [("1.1_scan.cpp", "int x;")] "1.1_scan.cpp" = "int x;" := by
  have h := claim_C3_amended 1 "intro" [("1.1_scan.cpp", "int x;")] rfl (by decide)
  have h2 := h.2 "1.1_scan.cpp" "int x;" (1, 1, none, "scan")
    (List.mem_singleton_self _) rfl rfl (by decide)
  exact ⟨rfl, h.1, h2.1, h2.2⟩

/-- **C6 (amended).** On every successful run, the emitted subsection
headers are exactly the processed entries whose subsection number is
truthy (present and nonzero), in sorted order, each with text equal to the
entry's display name with underscores replaced by spaces; every emitted
subsection header carries a subsection number at least 1, and the headers
appear in ascending (section, subsection) order.  Entries without a
subsection number, or with subsection number 0, emit no header (see the
counterexample for subsection 0). -/
theorem claim_C6_amended (c : Nat) (nm : String) (listing : List (String × String))
    (hok : (genChapter c nm listing).2 = .ok ()) :
    subHeaders (genChapter c nm listing).1 =
      ((keptSorted c listing).filter fun e => truthy e.subsection).map
        (fun e => (e.sectionNo, e.subsection, replaceChar e.name '_' ' ')) ∧
    (∀ x ∈ subHeaders (genChapter c nm listing).1, ∃ k, x.2.1 = some k ∧ 1 ≤ k) ∧
    List.Pairwise (fun a b : Nat × Option Nat × String =>
        a.1 ≤ b.1 ∧ (a.1 = b.1 → ∀ i j, a.2.1 = some i → b.2.1 = some j → i ≤ j))
      (subHeaders (genChapter c nm listing).1) := by
  obtain ⟨es, r, hc, hsort⟩ := genChapter_ok_inv hok
  rw [genChapter_ok hc hsort, keptSorted_eq hc hsort]
  rw [subHeaders_chapterLine, subHeaders_emitAll]
  have hff : ((r.filter fun e => decide (1 ≤ e.sectionNo)).filter
        fun e => truthy e.subsection) =
      r.filter fun e => decide (1 ≤ e.sectionNo) && truthy e.subsection := by
    rw [List.filter_filter]
    apply List.filter_congr
    intro x _
    exact Bool.and_comm _ _
  rw [hff]
  refine ⟨rfl, ?_, ?_⟩
  · intro x hx
    rw [List.mem_map] at hx
    obtain ⟨e, he, hxe⟩ := hx
    rw [List.mem_filter, Bool.and_eq_true] at he
    obtain ⟨_, _, htru⟩ := he
    subst hxe
    cases hsub : e.subsection with
    | none =>
      rw [hsub] at htru
      exact Bool.noConfusion htru
    | some k =>
      refine ⟨k, rfl, ?_⟩
      · rw [hsub] at htru
        have hk : k ≠ 0 := by
          simpa [truthy] using htru
        omega
  · have hpw : List.Pairwise leT r := (sortE_ok_spec hsort).2.1
    have hch := sorted_chapter hc hsort
    have hpwf : List.Pairwise leT
        (r.filter fun e => decide (1 ≤ e.sectionNo) && truthy e.subsection) :=
      hpw.filter _
    rw [List.pairwise_map]
    refine hpwf.imp_of_mem ?_
    intro a b ha hb hab
    have hmema : a ∈ r := List.mem_of_mem_filter ha
    have hmemb : b ∈ r := List.mem_of_mem_filter hb
    have hcheq : a.chapter = b.chapter := by rw [hch a hmema, hch b hmemb]
    constructor
    · exact leT_sec hab hcheq
    · intro hsec i j hi hj
      have hi' : a.subsection = some i := hi
      have hj' : b.subsection = some j := hj
      have hsec' : a.sectionNo = b.sectionNo := hsec
      have hsubT := leT_sub hab hcheq hsec'
      rw [hi', hj'] at hsubT
      exact cmpNat_ne_gt hsubT

theorem claim_C6_amended_witness :
    (genChapter 1 "intro" [("1.2.1_probe_sort.cpp", "int y;")]).2 = .ok () ∧
    subHeaders (genChapter 1 "intro" [("1.2.1_probe_sort.cpp", "int y;")]).1 =
      ((keptSorted 1 [("1.2.1_probe_sort.cpp", "int y;")]).filter
          fun e => truthy e.subsection).map
        (fun e => (e.sectionNo, e.subsection, replaceChar e.name '_' ' ')) := by
  have h := claim_C6_amended 1 "intro" [("1.2.1_probe_sort.cpp", "int y;")] rfl
  exact ⟨rfl, h.1⟩

/-- **C9 (amended).** Exact characterization of one loop iteration at a
section transition: whenever the current entry's section number (at least 1)
differs from the `prev_section` tracker, the loop emits the section header
immediately followed by the section-counter set; the subsection-counter
reset — together with the subsection header — is additionally emitted
exactly when that entry carries a truthy (present and nonzero) subsection
number, and otherwise the begin marker of the verbatim block follows the
section-counter set directly.  So not every transition carries a reset
(see the counterexample). -/
theorem claim_C9_amended (listing : List (String × String)) (prev : Option Nat)
    (e : Entry) (rest : List Entry) (h1 : ¬ e.sectionNo < 1)
    (h2 : some e.sectionNo ≠ prev) :
    emitAll listing prev (e :: rest) =
      [Item.sectionHeader e.chapter e.sectionNo
         (sectionName e.chapter e.sectionNo),
       Item.setCounterSection e.sectionNo] ++
      (if truthy e.subsection then
        [Item.setCounterSubsection,
         Item.subsectionHeader e.sectionNo e.subsection
           (replaceChar e.name '_' ' ')]
       else []) ++
      ([Item.beginLst, Item.content e.sectionNo (readFile listing e.file),
        Item.endLst] ++
       emitAll listing (some e.sectionNo) rest) := by
  rw [emitAll_cons, emitEntry_out h1]
  simp only [if_pos h2]
  cases ht : truthy e.subsection
  · simp [ht]
  · simp [ht]

theorem claim_C9_amended_witness :
    (truthy (Entry.mk 1 2 (some 1) "probe_sort" "1.2.1_probe_sort.cpp").subsection =
        true ∧
      emitAll [("1.2.1_probe_sort.cpp", "int y;")] (some 1)
          [Entry.mk 1 2 (some 1) "probe_sort" "1.2.1_probe_sort.cpp"] =
        [Item.sectionHeader 1 2 (sectionName 1 2), Item.setCounterSection 2,
         Item.setCounterSubsection,
         Item.subsectionHeader 2 (some 1) (replaceChar "probe_sort" '_' ' '),
         Item.beginLst,
         Item.content 2 (readFile [("1.2.1_probe_sort.cpp", "int y;")]
           "1.2.1_probe_sort.cpp"),
         Item.endLst]) ∧
    (truthy (Entry.mk 1 1 none "scan" "1.1_scan.cpp").subsection = false ∧
      emitAll [("1.1_scan.cpp", "int x;")] none
          [Entry.mk 1 1 none "scan" "1.1_scan.cpp"] =
        [Item.sectionHeader 1 1 (sectionName 1 1), Item.setCounterSection 1,
         Item.beginLst,
         Item.content 1 (readFile [("1.1_scan.cpp", "int x;")] "1.1_scan.cpp"),
         Item.endLst]) := by
  constructor
  · constructor
    · rfl
    · have h := claim_C9_amended [("1.2.1_probe_sort.cpp", "int y;")] (some 1)
        (Entry.mk 1 2 (some 1) "probe_sort" "1.2.1_probe_sort.cpp") []
        (by decide) (by decide)
      rw [h]
      rfl
  · constructor
    · rfl
    · have h := claim_C9_amended [("1.1_scan.cpp", "int x;")] none
        (Entry.mk 1 1 none "scan" "1.1_scan.cpp") []
        (by decide) (by decide)
      rw [h]
      rfl

/-- C8 (amended): provided no two matching root directories carry the same
embedded chapter number, no chapter directory listing repeats a file name,
and every matching directory generates successfully (no chapter-number
assertion failure and no None/int comparison TypeError), the final content
written to every output file is invariant under the order in which the
filesystem enumerates the root and each chapter directory (`TreeEquiv`):
generation is then deterministic and idempotent at the level of output
bytes. -/
theorem claim_C8_amended (r1 r2 : List (String × List (String × String)))
    (he : TreeEquiv r1 r2) (hc : (dirChapters r1).Nodup)
    (hnd : ∀ d ∈ r1, (d.2.map Prod.fst).Nodup)
    (hok : ∀ d ∈ r1, ∀ p, parseDirName d.1 = some p →
      (genChapter p.1 p.2 d.2).2 = Except.ok ()) :
    ∀ f, lastWrite (runMain r1) f = lastWrite (runMain r2) f := by
  obtain ⟨r', hperm, hf2⟩ := he
  have hnd' : ∀ d ∈ r', (d.2.map Prod.fst).Nodup :=
    fun d hd => hnd d (hperm.symm.subset hd)
  have hok' : ∀ d ∈ r', ∀ p, parseDirName d.1 = some p →
      (genChapter p.1 p.2 d.2).2 = Except.ok () :=
    fun d hd => hok d (hperm.symm.subset hd)
  have h2 : runMain r' = runMain r2 := runMain_eq_of_forall₂ hf2 hnd'
  have hf1 := runMain_eq_filterMap hok
  have hf' := runMain_eq_filterMap hok'
  have h1 : (runMain r1).Perm (runMain r') := by
    rw [hf1, hf']
    exact hperm.filterMap _
  have hkeys : ((runMain r1).map Prod.fst).Nodup := by
    rw [hf1, writes_keys r1]
    exact hc.map outFileName_injective
  intro f
  rw [lastWrite_perm h1 hkeys f, h2]

theorem claim_C8_amended_witness :
    lastWrite (runMain [("1-intro", [("1.1_a.cpp", "A"), ("1.2_b.cpp", "B")])])
        "chapter1.tex" =
      lastWrite (runMain [("1-intro", [("1.2_b.cpp", "B"), ("1.1_a.cpp", "A")])])
        "chapter1.tex" :=
  claim_C8_amended
    [("1-intro", [("1.1_a.cpp", "A"), ("1.2_b.cpp", "B")])]
    [("1-intro", [("1.2_b.cpp", "B"), ("1.1_a.cpp", "A")])]
    ⟨[("1-intro", [("1.1_a.cpp", "A"), ("1.2_b.cpp", "B")])], List.Perm.refl _,
      List.Forall₂.cons ⟨rfl, List.Perm.swap _ _ _⟩ List.Forall₂.nil⟩
    (by decide) (by decide)
    (by
      intro d hd p hp
      rw [List.mem_singleton] at hd
      subst hd
      have h1 : parseDirName "1-intro" = some (1, "intro") := rfl
      rw [h1, Option.some.injEq] at hp
      subst hp
      rfl)
    "chapter1.tex"

end Claims

end GenContents
